import Mathlib

/-!
Verification development for the gbcc dataflow-analysis engine.

The Rust source is embedded shallowly: pure Lean functions mirror the Rust
functions, machine maps (FnvHashMap) become association lists queried only
through lookup, and every Rust panic (index out of bounds, `expect`,
unimplemented rewrite kinds, arithmetic overflow in debug builds) becomes
`none` in an `Option`-valued result.  Recursion that Rust drives by mutation
of a worklist is given an explicit fuel argument; a run that needs more fuel
returns `none`, so "the engine terminates with a result" is rendered as
"some fuel makes the run return `some`".

The repository is mid-refactor: `src/dataflow/analysis.rs`,
`backward_analysis.rs` and `dominator.rs` are written against a
`Language`-trait graph module (`BasicBlock` with entry/code/exit fields,
`Entry::label`, `Exit::successors`, `Graph::direct_predecessors`) that is not
present under `src/` (the `graph.rs` that is present is an older flat
variant).  Those missing pieces are modelled from the spec (and from the flat
`graph.rs` where it carries the same algorithm, e.g. `post_order_traversal`);
each such definition says so in its doc comment.
-/

/-- A label: the Rust `Label(pub u32)` newtype; only equality is ever used,
so it is modelled as `Nat`. -/
abbrev Label := Nat

/-- `FactBase F` is Rust's `FnvHashMap<Label, F>`, modelled as an association
list with insert-replaces semantics; all observations go through `find?`. -/
abbrev FactBase (F : Type) : Type := List (Label × F)

namespace FactBase

/-- Map lookup (`fact_base.get(&label)` / `fact_base[&label]`). -/
def find? {F : Type} : FactBase F → Label → Option F
  | [], _ => none
  | (k, v) :: rest, l => if k = l then some v else find? rest l

/-- Map insertion (`fact_base.insert(label, fact)`): replaces an existing
binding for the key, otherwise appends. -/
def insert {F : Type} : FactBase F → Label → F → FactBase F
  | [], l, f => [(l, f)]
  | (k, v) :: rest, l, f => if k = l then (l, f) :: rest else (k, v) :: insert rest l f

/-- Lookup with a default, mirroring `entry(label).or_insert_with(F::bottom)`
followed by a read. -/
def findD {F : Type} (fb : FactBase F) (l : Label) (d : F) : F := (find? fb l).getD d

end FactBase

/-- Modelled from the spec: the `Language`-variant `BasicBlock` ("an ordered
triple (entry, ordered sequence of instructions, exit)"), whose fields the
engine accesses as `block.entry`, `block.code`, `block.exit`.  The module
defining it is not present under `src/`; the field layout is fixed by its
uses in `src/dataflow/analysis.rs` and `backward_analysis.rs`. -/
structure BasicBlock (E I X : Type) where
  entry : E
  code : List I
  exit : X

/-- Modelled from the spec: the client `Language` capability bundle — an
entry marker exposes its label (`Entry::label`), an exit exposes its
successor labels (`Exit::successors`).  The trait definitions are in the
missing graph module; the signatures are fixed by the spec (§6) and the uses
in `src/main.rs`. -/
structure Lang (E X : Type) where
  entryLabel : E → Label
  successors : X → List Label

/-- Modelled from the spec: the `Language`-variant `Graph`, "an owned mapping
from label to block" (`FnvHashMap<Label, BasicBlock>` in the flat `graph.rs`
that is present). -/
structure Graph (E I X : Type) where
  blocks : FactBase (BasicBlock E I X)

namespace Graph

/-- Block lookup; `graph[label]` panics (here: the caller sees `none`) when
the label is absent, `graph.blocks.get(&label)` is the non-panicking form. -/
def find? {E I X : Type} (g : Graph E I X) (l : Label) : Option (BasicBlock E I X) :=
  FactBase.find? g.blocks l

/-- `Graph::contains` from the flat `graph.rs` (also used by the engines). -/
def contains {E I X : Type} (g : Graph E I X) (l : Label) : Bool :=
  (find? g l).isSome

/-- `Graph::from_blocks`: inserts each block keyed by its entry's label
(later duplicates overwrite, as with `HashMap::insert`). -/
def fromBlocks {E I X : Type} (L : Lang E X) (bs : List (BasicBlock E I X)) : Graph E I X :=
  ⟨bs.foldl (fun acc b => FactBase.insert acc (L.entryLabel b.entry) b) []⟩

end Graph

/-- The successor labels of the block at `l` (`graph[label].successors()`,
which per the spec equal the block's exit's successors).  Returns `[]` when
the label is absent; the engines only call it after a `contains` check. -/
def succsOfLabel {E I X : Type} (L : Lang E X) (g : Graph E I X) (l : Label) : List Label :=
  match g.find? l with
  | some b => L.successors b.exit
  | none => []

/-- Sequential traversal of a successor list, threading the (visited,
output) state through a step function (the depth-first recursion of
`post_order_traversal` applied to one label). -/
def poGoList (step : List Label → List Label → Label → Option (List Label × List Label)) :
    List Label → List Label → List Label → Option (List Label × List Label)
  | visited, out, [] => some (visited, out)
  | visited, out, s :: rest =>
    match step visited out s with
    | none => none
    | some (v, o) => poGoList step v o rest

/-- The recursive worker `go` inside `Graph::post_order_traversal`
(src/dataflow/graph.rs:66-74): insert into the visited set, index the graph
(panicking — `none` — when the label is absent), recurse into every
successor, then append the label.  `fuel` bounds the recursion depth. -/
def poGo {E I X : Type} (L : Lang E X) (g : Graph E I X) :
    Nat → List Label → List Label → Label → Option (List Label × List Label)
  | 0, _, _, _ => none
  | fuel + 1, visited, out, l =>
    if l ∈ visited then some (visited, out)
    else
      match g.find? l with
      | none => none
      | some b =>
        match poGoList (poGo L g fuel) (l :: visited) out (L.successors b.exit) with
        | none => none
        | some (v, o) => some (v, o ++ [l])

/-- `Graph::post_order_traversal` (src/dataflow/graph.rs:65-80): depth-first
from `entry`, all successors before the current label, with a visited set. -/
def postOrderTraversal {E I X : Type} (L : Lang E X) (g : Graph E I X)
    (fuel : Nat) (entry : Label) : Option (List Label) :=
  match poGo L g fuel [] [] entry with
  | none => none
  | some (_, out) => some out

/-- The lattice contract (src/dataflow/lattice.rs): a bottom element and an
in-place join returning whether the receiver changed.  The Rust `join` can
panic (e.g. `DominatorFact::join` indexes the other path), so the embedded
join is `Option`-valued: `none` is a panic. -/
structure LatticeContract (F : Type) where
  bottom : F
  join : F → F → Label → Option (F × Bool)

/-- `RewriteInstruction` (src/dataflow/analysis.rs:44-60): replace the
current instruction with one instruction, a vector of instructions, or a
sub-graph. -/
inductive RewriteInstruction (E I X : Type) where
  | single (i : I)
  | multiple (is : List I)
  | graph (x : X) (g : Graph E I X) (e : E)

/-- `RewriteExit` (src/dataflow/analysis.rs:62-77): the exit handler is done
(supplying the successor fact base), or replaces the exit, extends the code
and replaces the exit, or splices in a sub-graph. -/
inductive RewriteExit (E I X F : Type) where
  | done (fb : FactBase F)
  | single (x : X)
  | extend (is : List I) (x : X)
  | graph (x : X) (g : Graph E I X) (e : E)

/-- The `ForwardAnalysis` trait (src/dataflow/analysis.rs:79-97).  The client
is stateful (`&mut self`), so an explicit state `S` is threaded through.
The instruction callback receives `&mut fact` via the `AnalyzeInstruction`
token and may update the fact and/or request a rewrite; both capabilities
appear in the returned triple.  An outer `none` is a client panic. -/
structure ForwardAnalysis (S E I X F : Type) where
  analyzeEntry : S → Graph E I X → Label → E → F → Option (S × F)
  analyzeInstruction : S → Graph E I X → Label → I → F →
    Option (S × F × Option (RewriteInstruction E I X))
  analyzeExit : S → Graph E I X → Label → X → F → Option (S × RewriteExit E I X F)

/-- `Vec::splice(index..index + insts.len(), insts)` as performed by the
forward engine's `Multiple` rewrite arm (src/dataflow/analysis.rs:195):
replaces the `insts.len()` instructions starting at `index`; panics (`none`)
when the range overruns the vector. -/
def spliceForward {I : Type} (code : List I) (index : Nat) (insts : List I) : Option (List I) :=
  if index + insts.length ≤ code.length then
    some (code.take index ++ insts ++ code.drop (index + insts.length))
  else
    none

/-- The instruction/exit loop of `fixed_point_forward_block`
(src/dataflow/analysis.rs:182-225): walk the (cloned) code by index, letting
the client rewrite in place; at the end of the code run the exit handler,
which either finishes with a successor fact base or rewrites the exit and
re-enters the loop.  A `Graph` rewrite request panics ("Unimplemented"). -/
def forwardBlockLoop {S E I X F : Type} (A : ForwardAnalysis S E I X F)
    (g : Graph E I X) (l : Label) :
    Nat → S → List I → X → Nat → F → Option (S × FactBase F)
  | 0, _, _, _, _, _ => none
  | fuel + 1, s, code, exit, index, fact =>
    match code[index]? with
    | some instr =>
      match A.analyzeInstruction s g l instr fact with
      | none => none
      | some (s', fact', none) => forwardBlockLoop A g l fuel s' code exit (index + 1) fact'
      | some (s', fact', some (.single i)) =>
        forwardBlockLoop A g l fuel s' (code.set index i) exit index fact'
      | some (s', fact', some (.multiple insts)) =>
        match spliceForward code index insts with
        | none => none
        | some code' => forwardBlockLoop A g l fuel s' code' exit index fact'
      | some (_, _, some (.graph _ _ _)) => none
    | none =>
      match A.analyzeExit s g l exit fact with
      | none => none
      | some (s', .done fb) => some (s', fb)
      | some (s', .single x) => forwardBlockLoop A g l fuel s' code x index fact
      | some (s', .extend insts x) => forwardBlockLoop A g l fuel s' (code ++ insts) x index fact
      | some (_, .graph _ _ _) => none

/-- `fixed_point_forward_block` (src/dataflow/analysis.rs:163-226): read the
label's fact (the `expect` panics — `none` — when absent), clone the block
(`graph[label]` panics when absent), run the entry handler, then the
instruction/exit loop. -/
def fixedPointForwardBlock {S E I X F : Type} (A : ForwardAnalysis S E I X F)
    (g : Graph E I X) (l : Label) (blockFuel : Nat) (s : S) (fb : FactBase F) :
    Option (S × FactBase F) :=
  match FactBase.find? fb l with
  | none => none
  | some fact0 =>
    match g.find? l with
    | none => none
    | some b =>
      match A.analyzeEntry s g l b.entry fact0 with
      | none => none
      | some (s1, fact1) => forwardBlockLoop A g l blockFuel s1 b.code b.exit 0 fact1

/-- The successor loop of `fixed_point_forward_graph`
(src/dataflow/analysis.rs:148-159): for each successor of the original block,
`or_insert` bottom, join the block's output fact for that successor into the
fact base (indexing the output — `none` when the successor is missing from
it), and push the successor unless it is already pending. -/
def joinSuccessors {F : Type} (lat : LatticeContract F) :
    List Label → FactBase F → FactBase F → List Label → Option (FactBase F × List Label)
  | [], fb, _, toVisit => some (fb, toVisit)
  | succ :: rest, fb, out, toVisit =>
    match FactBase.find? out succ with
    | none => none
    | some outFact =>
      match lat.join (FactBase.findD fb succ lat.bottom) outFact succ with
      | none => none
      | some (joined, changed) =>
        let fb' := FactBase.insert fb succ joined
        let toVisit' := if changed && !(toVisit.contains succ) then toVisit ++ [succ] else toVisit
        joinSuccessors lat rest fb' out toVisit'

/-- The worklist loop of `fixed_point_forward_graph`
(src/dataflow/analysis.rs:140-160): pop from the end of `to_visit`, skip
labels outside the graph, otherwise analyze the block and distribute to
successors. -/
def forwardLoop {S E I X F : Type} (L : Lang E X) (lat : LatticeContract F)
    (A : ForwardAnalysis S E I X F) (g : Graph E I X) (blockFuel : Nat) :
    Nat → S → List Label → FactBase F → Option (S × FactBase F)
  | 0, _, _, _ => none
  | fuel + 1, s, toVisit, fb =>
    match toVisit.getLast? with
    | none => some (s, fb)
    | some label =>
      let rest := toVisit.dropLast
      if g.contains label then
        match fixedPointForwardBlock A g label blockFuel s fb with
        | none => none
        | some (s', out) =>
          match joinSuccessors lat (succsOfLabel L g label) fb out rest with
          | none => none
          | some (fb', toVisit') => forwardLoop L lat A g blockFuel fuel s' toVisit' fb'
      else forwardLoop L lat A g blockFuel fuel s rest fb

/-- `forward_analysis` together with `fixed_point_forward_graph`
(src/dataflow/analysis.rs:109-161): seed the fact base with the entry fact,
take the post-order traversal as the initial worklist, and run the worklist
loop.  Returns the final client state and fact base (the Rust caller keeps
`&mut analysis` and receives the fact base). -/
def forwardAnalysis {S E I X F : Type} (L : Lang E X) (lat : LatticeContract F)
    (A : ForwardAnalysis S E I X F) (g : Graph E I X) (entry : Label) (entryFact : F)
    (s0 : S) (poFuel outerFuel blockFuel : Nat) : Option (S × FactBase F) :=
  match postOrderTraversal L g poFuel entry with
  | none => none
  | some toVisit => forwardLoop L lat A g blockFuel outerFuel s0 toVisit
      (FactBase.insert [] entry entryFact)

/-- `DominatorFact` (src/dataflow/dominator.rs:5-8): the known common path of
dominating labels, or `none` if never visited. -/
abbrev DominatorFact := Option (List Label)

/-- The index loop of `DominatorFact::join` (src/dataflow/dominator.rs:24-29)
on two present paths: walk the receiver's path, reading the other path at the
same index (a Rust index panic — `none` — when the other path is shorter),
and truncate at the first divergence, reporting a change.  Returns the
receiver's new path and the changed flag. -/
def domJoinScan : List Label → List Label → Option (List Label × Bool)
  | [], _ => some ([], false)
  | _ :: _, [] => none
  | a :: as, b :: bs =>
    if a = b then
      match domJoinScan as bs with
      | none => none
      | some (t, ch) => some (a :: t, ch)
    else some ([], true)

/-- `DominatorFact::join` (src/dataflow/dominator.rs:15-33): an absent
receiver path copies the other path and reports a change unconditionally
(even when the other path is also absent); two present paths are scanned for
divergence; a present receiver with an absent other is unchanged. -/
def domJoin (self other : DominatorFact) (_l : Label) : Option (DominatorFact × Bool) :=
  match self with
  | none => some (other, true)
  | some sd =>
    match other with
    | none => some (some sd, false)
    | some od =>
      match domJoinScan sd od with
      | none => none
      | some (t, ch) => some (some t, ch)

/-- The `Lattice` impl for `DominatorFact` (src/dataflow/dominator.rs:10-34):
bottom is the absent path. -/
def domLattice : LatticeContract DominatorFact :=
  { bottom := none, join := domJoin }

/-- `distribute_facts` (src/dataflow/analysis.rs:101-107): one copy of the
fact per successor of the exit. -/
def distributeFacts {E X F : Type} (L : Lang E X) (exit : X) (fact : F) : FactBase F :=
  (L.successors exit).foldl (fun fb succ => FactBase.insert fb succ fact) []

/-- `DominatorAnalysis` (src/dataflow/dominator.rs:36-69): the entry handler
appends the entry's label to the path (inserting an empty path first when
absent), instructions change nothing, the exit distributes the fact unchanged
to every successor. -/
def dominatorAnalysis {E I X : Type} (L : Lang E X) :
    ForwardAnalysis Unit E I X DominatorFact :=
  { analyzeEntry := fun s _ _ entry fact => some (s, some (fact.getD [] ++ [L.entryLabel entry]))
  , analyzeInstruction := fun s _ _ _ fact => some (s, fact, none)
  , analyzeExit := fun s _ _ exit fact => some (s, .done (distributeFacts L exit fact)) }

/-- `Var(u16)` from the test client in src/main.rs; only equality is used. -/
abbrev Var := Nat

/-- `Constant(usize)` from the test client; a natural number below
`usizeBound` (the embedding assumes the usual 64-bit `usize`). -/
abbrev Constant := Nat

/-- One past the largest `usize` value on a 64-bit target. -/
def usizeBound : Nat := 2 ^ 64

/-- The `Arith` operator enum of the test client (src/main.rs:17-23). -/
inductive ArithOp where
  | add
  | sub
  | and
  | or
deriving DecidableEq, Repr

/-- The `Cond` operator enum of the test client (src/main.rs:25-31). -/
inductive CondOp where
  | eq
  | neq
  | lt
  | lte
deriving DecidableEq, Repr

/-- `RiscEntry` (src/main.rs:33-36). -/
inductive RiscEntry where
  | label (l : Label)
deriving DecidableEq, Repr

/-- `RiscInstruction` (src/main.rs:38-42). -/
inductive RiscInstruction where
  | load (v : Var) (c : Constant)
  | arith (op : ArithOp) (dst src1 src2 : Var)
deriving DecidableEq, Repr

/-- `RiscExit` (src/main.rs:44-49). -/
inductive RiscExit where
  | cond (c : CondOp) (s1 s2 : Var) (l1 l2 : Label)
  | jump (l : Label)
  | ret
deriving DecidableEq, Repr

/-- The `Entry`/`Exit` impls for the RISC test language (src/main.rs:51-69):
a conditional exit has both targets as successors, a jump has one, a return
has none. -/
def riscLang : Lang RiscEntry RiscExit :=
  { entryLabel := fun e => match e with | .label l => l
  , successors := fun x =>
      match x with
      | .cond _ _ _ l1 l2 => [l1, l2]
      | .jump l => [l]
      | .ret => [] }

/-- `WithTop<Constant>` (src/main.rs:80-84). -/
inductive ConstVal where
  | top
  | elem (c : Constant)
deriving DecidableEq, Repr

/-- `ConstFact` (src/main.rs:86-89): a map from variable to constant-or-top.
`Var = Nat = Label`, so the association-list map is reused. -/
abbrev ConstFact := FactBase ConstVal

/-- One iteration of the loop body of `ConstFact::join` (src/main.rs:120-140)
for a single key/value pair of the other map. -/
def constJoinStep (self : ConstFact) (k : Var) (v : ConstVal) : ConstFact × Bool :=
  let old := FactBase.find? self k
  let new :=
    match old, v with
    | some .top, _ => ConstVal.top
    | _, .top => ConstVal.top
    | some (.elem x), .elem y => if x = y then ConstVal.elem x else ConstVal.top
    | none, w => w
  if old = some new then (self, false) else (FactBase.insert self k new, true)

/-- The fold of `ConstFact::join` over the other map's entries.  The Rust
iteration order over a `HashMap` is unspecified; the per-key updates are
independent, so every order yields the same map as observed through lookup.
The embedding iterates in list order. -/
def constJoinAux : ConstFact → Bool → List (Var × ConstVal) → ConstFact × Bool
  | self, changed, [] => (self, changed)
  | self, changed, (k, v) :: rest =>
    let p := constJoinStep self k v
    constJoinAux p.1 (changed || p.2) rest

/-- The `Lattice` impl for `ConstFact` (src/main.rs:114-144): bottom is the
empty map; join merges the other map pointwise, lifting conflicting
constants to top.  It never panics. -/
def constLattice : LatticeContract ConstFact :=
  { bottom := [], join := fun a b _ => some (constJoinAux a false b) }

/-- Debug-build `usize` arithmetic for the `Arith` fold (src/main.rs:177-182):
`+` and `-` panic (`none`) on overflow/underflow in a debug (cargo test)
build; `&` and `|` cannot overflow. -/
def evalArith : ArithOp → Nat → Nat → Option Nat
  | .add, a, b => if a + b < usizeBound then some (a + b) else none
  | .sub, a, b => if b ≤ a then some (a - b) else none
  | .and, a, b => some (Nat.land a b)
  | .or, a, b => some (Nat.lor a b)

/-- `ConstFact::get_const` (src/main.rs:106-111). -/
def getConst (f : ConstFact) (v : Var) : Option Constant :=
  match FactBase.find? f v with
  | some (.elem c) => some c
  | _ => none

/-- `ConstantPropagation` (src/main.rs:146-215): entry passes the fact
through; a `Load` binds the destination; an `Arith` whose sources are both
known constants folds them and requests a single-instruction replacement
with an equivalent `Load`; the exit distributes the fact to its targets. -/
def constantPropagation : ForwardAnalysis Unit RiscEntry RiscInstruction RiscExit ConstFact :=
  { analyzeEntry := fun s _ _ _ fact => some (s, fact)
  , analyzeInstruction := fun s _ _ instr fact =>
      match instr with
      | .load v c => some (s, FactBase.insert fact v (.elem c), none)
      | .arith op dst src1 src2 =>
        match getConst fact src1, getConst fact src2 with
        | some c1, some c2 =>
          match evalArith op c1 c2 with
          | some r => some (s, fact, some (.single (.load dst r)))
          | none => none
        | _, _ => some (s, fact, none)
  , analyzeExit := fun s _ _ exit fact =>
      match exit with
      | .cond _ _ _ l1 l2 => some (s, .done (FactBase.insert (FactBase.insert [] l1 fact) l2 fact))
      | .jump l => some (s, .done (FactBase.insert [] l fact))
      | .ret => some (s, .done []) }

/-- The diamond graph of `dominator_test` (src/main.rs:249-283): block 1
jumps to 2; block 2 conditionally jumps to 3 or 4; blocks 3 and 4 each jump
to 5; block 5 jumps back to 2. -/
def dominatorTestGraph : Graph RiscEntry RiscInstruction RiscExit :=
  Graph.fromBlocks riscLang
    [ ⟨.label 1, [], .jump 2⟩
    , ⟨.label 2, [], .cond .eq 0 1 3 4⟩
    , ⟨.label 3, [], .jump 5⟩
    , ⟨.label 4, [], .jump 5⟩
    , ⟨.label 5, [], .jump 2⟩ ]

/-- The three-block loop of `constant_test` (src/main.rs:217-247): block 0
loads constants 0, 1, 5 into variables 0, 1, 2 and jumps to block 1, which
subtracts variable 1 from variable 2 and conditionally jumps to block 2
(return) or back to itself. -/
def constantTestGraph : Graph RiscEntry RiscInstruction RiscExit :=
  Graph.fromBlocks riscLang
    [ ⟨.label 0, [.load 0 0, .load 1 1, .load 2 5], .jump 1⟩
    , ⟨.label 1, [.arith .sub 2 2 1], .cond .eq 2 0 2 1⟩
    , ⟨.label 2, [], .ret⟩ ]

/-- The `dominator_test` run (src/main.rs:270-276): forward analysis with
`DominatorAnalysis` from label 1 with the bottom fact. -/
def dominatorTestRun : Option (Unit × FactBase DominatorFact) :=
  forwardAnalysis riscLang domLattice (dominatorAnalysis riscLang) dominatorTestGraph 1
    (none : DominatorFact) () 100 100 100

/-- The `constant_test` run (src/main.rs:243-245): forward analysis with
`ConstantPropagation` from label 0 with the bottom (empty) fact. -/
def constantTestRun : Option (Unit × FactBase ConstFact) :=
  forwardAnalysis riscLang constLattice constantPropagation constantTestGraph 0
    ([] : ConstFact) () 100 100 100

/-- `RewriteInstructionBackward` (src/dataflow/backward_analysis.rs:86-102):
same shape as the forward instruction rewrite. -/
inductive RewriteInstructionBackward (E I X : Type) where
  | single (i : I)
  | multiple (is : List I)
  | graph (x : X) (g : Graph E I X) (e : E)

/-- `RewriteExitBackward` (src/dataflow/backward_analysis.rs:104-119):
replace the exit, extend the code and replace the exit, or splice in a
sub-graph. -/
inductive RewriteExitBackward (E I X : Type) where
  | single (x : X)
  | extend (is : List I) (x : X)
  | graph (x : X) (g : Graph E I X)

/-- The `BackwardAnalysis` trait (src/dataflow/backward_analysis.rs:121-145):
the exit and instruction callbacks may update the fact in place and/or
request a rewrite; the entry callback consumes the fact and returns a fact
base keyed by predecessor label.  An outer `none` is a client panic. -/
structure BackwardAnalysis (S E I X F : Type) where
  analyzeExit : S → Graph E I X → Label → X → F →
    Option (S × F × Option (RewriteExitBackward E I X))
  analyzeInstruction : S → Graph E I X → Label → I → F →
    Option (S × F × Option (RewriteInstructionBackward E I X))
  analyzeEntry : S → Graph E I X → Label → E → F → Option (S × FactBase F)

/-- The exit-rewrite loop of `fixed_point_backward_block`
(src/dataflow/backward_analysis.rs:211-229): repeatedly offer the exit to
the client until it stops requesting rewrites; a `Graph` request panics
("not implemented yet"). -/
def backwardExitLoop {S E I X F : Type} (A : BackwardAnalysis S E I X F)
    (g : Graph E I X) (l : Label) :
    Nat → S → List I → X → F → Option (S × List I × X × F)
  | 0, _, _, _, _ => none
  | fuel + 1, s, code, exit, fact =>
    match A.analyzeExit s g l exit fact with
    | none => none
    | some (s', fact', none) => some (s', code, exit, fact')
    | some (s', fact', some (.single x)) => backwardExitLoop A g l fuel s' code x fact'
    | some (s', fact', some (.extend insts x)) =>
      backwardExitLoop A g l fuel s' (code ++ insts) x fact'
    | some (_, _, some (.graph _ _)) => none

/-- The reverse instruction walk of `fixed_point_backward_block`
(src/dataflow/backward_analysis.rs:231-257): `counter` counts handled
instructions from the end; `index = len - (counter + 1)`.  A `Single`
rewrite overwrites in place, a `Multiple` rewrite splices
`index..index + 1`, both without advancing the counter; a `Graph` request
panics ("Unimplemented"). -/
def backwardInstrLoop {S E I X F : Type} (A : BackwardAnalysis S E I X F)
    (g : Graph E I X) (l : Label) :
    Nat → S → List I → Nat → F → Option (S × List I × F)
  | 0, _, _, _, _ => none
  | fuel + 1, s, code, counter, fact =>
    if counter < code.length then
      let index := code.length - (counter + 1)
      match code[index]? with
      | none => none
      | some instr =>
        match A.analyzeInstruction s g l instr fact with
        | none => none
        | some (s', fact', none) => backwardInstrLoop A g l fuel s' code (counter + 1) fact'
        | some (s', fact', some (.single i)) =>
          backwardInstrLoop A g l fuel s' (code.set index i) counter fact'
        | some (s', fact', some (.multiple insts)) =>
          backwardInstrLoop A g l fuel s'
            (code.take index ++ insts ++ code.drop (index + 1)) counter fact'
        | some (_, _, some (.graph _ _ _)) => none
    else some (s, code, fact)

/-- `fixed_point_backward_block` (src/dataflow/backward_analysis.rs:194-259):
read the label's fact — the `expect("We should always have a fact to start
from")` panics (`none`) when the fact base has no entry for the label —
clone the block, run the exit loop, walk the instructions backward, then the
entry handler. -/
def fixedPointBackwardBlock {S E I X F : Type} (A : BackwardAnalysis S E I X F)
    (g : Graph E I X) (l : Label) (blockFuel : Nat) (s : S) (fb : FactBase F) :
    Option (S × FactBase F) :=
  match FactBase.find? fb l with
  | none => none
  | some fact0 =>
    match g.find? l with
    | none => none
    | some b =>
      match backwardExitLoop A g l blockFuel s b.code b.exit fact0 with
      | none => none
      | some (s1, code1, _exit1, fact1) =>
        match backwardInstrLoop A g l blockFuel s1 code1 0 fact1 with
        | none => none
        | some (s2, _code2, fact2) => A.analyzeEntry s2 g l b.entry fact2

/-- Modelled from the spec: `Graph::direct_predecessors`, used by
`fixed_point_backward_graph` but absent from the graph module under `src/`.
Per the spec (§4.4) a backward analysis's facts flow to "each predecessor
label ... the block's predecessors in the original graph direction": the
labels of the blocks whose successor list contains the given label. -/
def directPredecessors {E I X : Type} (L : Lang E X) (g : Graph E I X)
    (l : Label) : List Label :=
  (g.blocks.filter (fun p => (L.successors p.2.exit).contains l)).map (fun p => p.1)

/-- The worklist loop of `fixed_point_backward_graph`
(src/dataflow/backward_analysis.rs:171-191): pop from the end, skip labels
outside the graph, analyze the block, and join the block's output fact base
into each direct predecessor, re-queueing changed predecessors. -/
def backwardLoop {S E I X F : Type} (L : Lang E X) (lat : LatticeContract F)
    (A : BackwardAnalysis S E I X F) (g : Graph E I X) (blockFuel : Nat) :
    Nat → S → List Label → FactBase F → Option (S × FactBase F)
  | 0, _, _, _ => none
  | fuel + 1, s, toVisit, fb =>
    match toVisit.getLast? with
    | none => some (s, fb)
    | some label =>
      let rest := toVisit.dropLast
      if g.contains label then
        match fixedPointBackwardBlock A g label blockFuel s fb with
        | none => none
        | some (s', out) =>
          match joinSuccessors lat (directPredecessors L g label) fb out rest with
          | none => none
          | some (fb', toVisit') => backwardLoop L lat A g blockFuel fuel s' toVisit' fb'
      else backwardLoop L lat A g blockFuel fuel s rest fb

/-- `backward_analysis` together with `fixed_point_backward_graph`
(src/dataflow/backward_analysis.rs:147-192): the fact base starts empty (no
externally supplied seed fact), the worklist is the post-order traversal
reversed, and the worklist loop runs to quiescence. -/
def backwardAnalysis {S E I X F : Type} (L : Lang E X) (lat : LatticeContract F)
    (A : BackwardAnalysis S E I X F) (g : Graph E I X) (entry : Label)
    (s0 : S) (poFuel outerFuel blockFuel : Nat) : Option (S × FactBase F) :=
  match postOrderTraversal L g poFuel entry with
  | none => none
  | some order => backwardLoop L lat A g blockFuel outerFuel s0 order.reverse []

/-- A label in the nested (pc) variant (src/pc/mod.rs:7-11 and
src/pc/instruction.rs:1-5): a (sub-graph, offset) pair. -/
structure PcLabel where
  subGraph : Nat
  index : Nat
deriving DecidableEq, Repr

/-- A node of the nested graph (src/pc/graph.rs:4-8): an actual instruction
or a marker naming a sub-graph spliced in at this position. -/
inductive PcNode (I : Type) where
  | instruction (i : I)
  | subGraph (n : Nat)
deriving DecidableEq, Repr

/-- `SubGraph` (src/pc/graph.rs:121-125): a numbered region with a
designated entry label and an ordered node list. -/
structure PcSubGraph (I : Type) where
  number : Nat
  entry : PcLabel
  nodes : List (PcNode I)

/-- The nested-variant `Graph` (src/pc/graph.rs:16-18): an ordered list of
regions; region 0 is the root program. -/
structure PcGraph (I : Type) where
  subGraphs : List (PcSubGraph I)

/-- `pc::ENTRY` (src/pc/graph.rs:20-23). -/
def pcEntry : PcLabel := ⟨0, 0⟩

/-- `LABEL_FORWARD_LIMIT` (src/pc/graph.rs:25). -/
def labelForwardLimit : Nat := 10000

namespace PcGraph

/-- `Graph::get_node` (src/pc/graph.rs:79-81): double indexing, panicking
(`none`) when either index is out of range. -/
def getNode {I : Type} (g : PcGraph I) (l : PcLabel) : Option (PcNode I) :=
  match g.subGraphs[l.subGraph]? with
  | none => none
  | some sg => sg.nodes[l.index]?

/-- `Graph::forward_label` (src/pc/graph.rs:55-60): an instruction node
stays put (continue = false); a sub-graph marker forwards to offset 0 of
that sub-graph (continue = true). -/
def forwardLabel {I : Type} (g : PcGraph I) (l : PcLabel) : Option (PcLabel × Bool) :=
  match getNode g l with
  | none => none
  | some (.instruction _) => (l, false)
  | some (.subGraph n) => (PcLabel.mk n 0, true)

/-- The counted loop of `Graph::forward_label_completely`
(src/pc/graph.rs:43-53): up to `fuel` forwarding steps; running out of fuel
is the "sub graph loop detected" panic. -/
def forwardLabelAux {I : Type} (g : PcGraph I) : Nat → PcLabel → Option PcLabel
  | 0, _ => none
  | fuel + 1, l =>
    match forwardLabel g l with
    | none => none
    | some (l', false) => some l'
    | some (l', true) => forwardLabelAux g fuel l'

/-- `Graph::forward_label_completely` (src/pc/graph.rs:43-53): iterate
region forwarding at most `LABEL_FORWARD_LIMIT` times, then panic. -/
def forwardLabelCompletely {I : Type} (g : PcGraph I) (l : PcLabel) : Option PcLabel :=
  forwardLabelAux g labelForwardLimit l

/-- `Graph::get_instruction` (src/pc/graph.rs:83-88): forward the label
completely, then read the node; the sub-graph arm is the "can't happen
because of forwarding" panic. -/
def getInstruction {I : Type} (g : PcGraph I) (l : PcLabel) : Option I :=
  match forwardLabelCompletely g l with
  | none => none
  | some l' =>
    match getNode g l' with
    | none => none
    | some (.instruction i) => some i
    | some (.subGraph _) => none

end PcGraph

/-- A nested graph whose root region's node 0 is a marker for the root
region itself: the self-referential region cycle of the forwarding bound. -/
def pcSelfLoopGraph : PcGraph Unit :=
  ⟨[⟨0, pcEntry, [.subGraph 0]⟩]⟩

/-- The dominator path the `dominator_test` run computed for a label: the
fact stored in the resulting fact base (`none` when the run failed or the
fact is still the absent-path bottom). -/
def dominatorPathAt (l : Label) : Option (List Label) :=
  match dominatorTestRun with
  | none => none
  | some (_, fb) => (FactBase.find? fb l).getD none

/-- C1, counterexample.  The claim's expected paths do not all hold of the
run: the engine stores each block's incoming (joined) fact, which never
contains the block's own label — that is appended only inside the block
visit by `analyze_entry`.  The computed path for block 3 is [1, 2] (not
[1, 2, 3]) and for block 2 it is [1] (not [1, 2]). -/
theorem c1_dominator_paths_counterexample :
    ¬ (dominatorPathAt 5 = some [1, 2] ∧ dominatorPathAt 3 = some [1, 2, 3] ∧
        dominatorPathAt 2 = some [1, 2]) := by
  decide

/-- C1, amended.  Running `forward_analysis` with `DominatorAnalysis` over
the diamond graph of the dominator test, entered at label 1 with the bottom
fact, terminates and yields the fact base mapping block 5 to path [1, 2],
blocks 3 and 4 to [1, 2], block 2 to [1], and block 1 to the untouched
bottom entry fact: each block's stored path is its strict-dominator path
(the block itself excluded). -/
theorem c1_dominator_paths :
    dominatorTestRun =
      some ((), [(1, none), (2, some [1]), (3, some [1, 2]), (4, some [1, 2]),
        (5, some [1, 2])]) ∧
      dominatorPathAt 5 = some [1, 2] ∧ dominatorPathAt 3 = some [1, 2] ∧
      dominatorPathAt 2 = some [1] := by
  decide

/-- C2, counterexample.  The resulting fact base also contains the entry
label 0, whose fact is the bottom (empty) fact that seeded the run, so
variables 0 and 1 are not bound in *every* fact of the fact base. -/
theorem c2_constant_propagation_counterexample :
    ¬ (∃ fb, constantTestRun = some ((), fb) ∧
        (∃ f1, FactBase.find? fb 1 = some f1 ∧ FactBase.find? f1 2 = some ConstVal.top) ∧
        ∀ p ∈ fb, getConst p.2 0 = some 0 ∧ getConst p.2 1 = some 1) := by
  rintro ⟨fb, hrun, -, hall⟩
  have he : constantTestRun =
      some ((), [(0, []), (1, [(0, .elem 0), (1, .elem 1), (2, .top)]),
        (2, [(0, .elem 0), (1, .elem 1), (2, .top)])]) := by decide
  rw [he] at hrun
  simp only [Option.some.injEq, Prod.mk.injEq, true_and] at hrun
  subst hrun
  have h0 := hall (0, []) (by decide)
  exact absurd h0.1 (by decide)

/-- C2, amended.  The constant-propagation run over the three-block loop
terminates and yields exactly: an empty fact for the entry label 0 (the
supplied bottom entry fact, never joined into), and, for both the loop body
(label 1) and the exit block (label 2), a fact binding variable 0 to
constant 0, variable 1 to constant 1, and variable 2 to top.  In
particular variable 2 is non-constant in the loop body's incoming fact,
and variables 0 and 1 keep their loaded constants in every fact other than
the entry label's. -/
theorem c2_constant_propagation :
    constantTestRun =
      some ((), [(0, []), (1, [(0, .elem 0), (1, .elem 1), (2, .top)]),
        (2, [(0, .elem 0), (1, .elem 1), (2, .top)])]) := by
  decide

/-- In an association list with no duplicate keys, membership determines
the lookup result. -/
theorem FactBase.find?_eq_of_mem_nodup {F : Type} (fb : FactBase F) (k : Label) (v : F)
    (hnd : (fb.map Prod.fst).Nodup) (hmem : (k, v) ∈ fb) :
    FactBase.find? fb k = some v := by
  induction fb with
  | nil => cases hmem
  | cons p rest ih =>
    obtain ⟨k', v'⟩ := p
    simp only [List.map_cons, List.nodup_cons] at hnd
    rcases List.mem_cons.mp hmem with h | h
    · obtain ⟨hk, hv⟩ := Prod.mk.injEq .. ▸ h
      simp [FactBase.find?, hk.symm, hv]
    · have hk : k' ≠ k := by
        rintro rfl
        exact hnd.1 (List.mem_map.mpr ⟨(k', v), h, rfl⟩)
      simp only [FactBase.find?, if_neg hk]
      exact ih hnd.2 h

/-- One step of `ConstFact::join` with a pair the receiver already contains
(with no duplicate keys) changes nothing and reports no change. -/
theorem constJoinStep_self (a : ConstFact) (k : Var) (v : ConstVal)
    (hnd : (a.map Prod.fst).Nodup) (hmem : (k, v) ∈ a) :
    constJoinStep a k v = (a, false) := by
  have hfind : FactBase.find? a k = some v := FactBase.find?_eq_of_mem_nodup a k v hnd hmem
  cases v with
  | top => simp [constJoinStep, hfind]
  | elem c => simp [constJoinStep, hfind]

/-- Folding `ConstFact::join` over pairs the receiver already contains
leaves the receiver and the changed flag untouched. -/
theorem constJoinAux_self (a : ConstFact) (hnd : (a.map Prod.fst).Nodup) :
    ∀ (rest : List (Var × ConstVal)), (∀ p ∈ rest, p ∈ a) →
      constJoinAux a false rest = (a, false) := by
  intro rest
  induction rest with
  | nil => intro _; rfl
  | cons p rest ih =>
    intro hsub
    obtain ⟨k, v⟩ := p
    have hstep : constJoinStep a k v = (a, false) :=
      constJoinStep_self a k v hnd (hsub (k, v) (List.mem_cons_self _ _))
    simp only [constJoinAux, hstep]
    exact ih (fun q hq => hsub q (List.mem_cons_of_mem _ hq))

/-- Scanning a path against itself finds no divergence and reports no
change. -/
theorem domJoinScan_self (xs : List Label) : domJoinScan xs xs = some (xs, false) := by
  induction xs with
  | nil => rfl
  | cons a as ih => simp [domJoinScan, ih]

/-- C4, counterexample.  `DominatorFact::join` is not idempotent at bottom:
an absent receiver path unconditionally copies the other path and reports a
change, even when the other fact is bottom too, so `join(bottom, bottom)`
returns `true`. -/
theorem c4_join_idempotence_counterexample :
    domLattice.join domLattice.bottom domLattice.bottom 0 = some (none, true) := by
  decide

/-- C4, amended.  Joining a fact with itself reports no change for every
`ConstFact` (any well-formed map, i.e. without duplicate keys) and for
every `DominatorFact` whose path is present; the sole exception, forced by
the counterexample, is a `DominatorFact` with an absent path (bottom),
where the join reports a change. -/
theorem c4_join_idempotence :
    (∀ (l : Label) (a : ConstFact), (a.map Prod.fst).Nodup →
        constLattice.join a a l = some (a, false)) ∧
    (∀ (l : Label) (xs : List Label),
        domLattice.join (some xs) (some xs) l = some (some xs, false)) := by
  constructor
  · intro l a hnd
    show some (constJoinAux a false a) = some (a, false)
    rw [constJoinAux_self a hnd a (fun p hp => hp)]
  · intro l xs
    show domJoin (some xs) (some xs) l = some (some xs, false)
    simp [domJoin, domJoinScan_self]

/-- C4, witness: the amended idempotence at a concrete constant fact and a
concrete present dominator path. -/
theorem c4_join_idempotence_witness :
    constLattice.join [(0, ConstVal.elem 5), (1, ConstVal.top)]
        [(0, ConstVal.elem 5), (1, ConstVal.top)] 7 =
      some ([(0, ConstVal.elem 5), (1, ConstVal.top)], false) ∧
    domLattice.join (some [1, 2]) (some [1, 2]) 3 = some (some [1, 2], false) :=
  ⟨c4_join_idempotence.1 7 [(0, ConstVal.elem 5), (1, ConstVal.top)] (by decide),
   c4_join_idempotence.2 3 [1, 2]⟩

/-- A one-point lattice: joins never change anything and never panic. -/
def unitLattice : LatticeContract Unit := ⟨(), fun _ _ _ => some ((), false)⟩

/-- A backward analysis that requests nothing: the exit and instruction
callbacks leave the fact alone, the entry callback distributes nothing. -/
def trivialBackward : BackwardAnalysis Unit RiscEntry RiscInstruction RiscExit Unit :=
  { analyzeExit := fun s _ _ _ f => some (s, f, none)
  , analyzeInstruction := fun s _ _ _ f => some (s, f, none)
  , analyzeEntry := fun s _ _ _ _ => some (s, []) }

/-- A minimal graph: the single block 0 with no instructions and a `Ret`
exit. -/
def oneBlockGraph : Graph RiscEntry RiscInstruction RiscExit :=
  Graph.fromBlocks riscLang [⟨.label 0, [], .ret⟩]

/-- C5.  `backward_analysis` starts from an *empty* fact base (nothing seeds
any label with bottom), yet `fixed_point_backward_block` immediately does
`fact_base.get(&label).expect("We should always have a fact to start
from")`; the very first label popped from the worklist therefore panics, so
the function returns a fact base for no graph that contains its entry —
here shown on the one-block graph with a do-nothing analysis. -/
theorem c5_backward_analysis_panics :
    backwardAnalysis riscLang unitLattice trivialBackward oneBlockGraph 0 () 100 100 100 =
      none := by
  decide

/-- A forward analysis whose instruction callback always requests a
replace-with-sub-graph rewrite. -/
def fwdGraphInstrAnalysis : ForwardAnalysis Unit RiscEntry RiscInstruction RiscExit Unit :=
  { analyzeEntry := fun s _ _ _ f => some (s, f)
  , analyzeInstruction := fun s _ _ _ _ => some (s, (), some (.graph .ret ⟨[]⟩ (.label 0)))
  , analyzeExit := fun s _ _ _ _ => some (s, .done []) }

/-- A forward analysis whose exit callback always requests a
replace-with-sub-graph rewrite. -/
def fwdGraphExitAnalysis : ForwardAnalysis Unit RiscEntry RiscInstruction RiscExit Unit :=
  { analyzeEntry := fun s _ _ _ f => some (s, f)
  , analyzeInstruction := fun s _ _ _ f => some (s, f, none)
  , analyzeExit := fun s _ _ _ _ => some (s, .graph .ret ⟨[]⟩ (.label 0)) }

/-- A backward analysis whose instruction callback requests a
replace-with-sub-graph rewrite (the exit callback stops immediately). -/
def bwdGraphInstrAnalysis : BackwardAnalysis Unit RiscEntry RiscInstruction RiscExit Unit :=
  { analyzeExit := fun s _ _ _ f => some (s, f, none)
  , analyzeInstruction := fun s _ _ _ _ => some (s, (), some (.graph .ret ⟨[]⟩ (.label 0)))
  , analyzeEntry := fun s _ _ _ _ => some (s, []) }

/-- A backward analysis whose exit callback requests a
replace-with-sub-graph rewrite. -/
def bwdGraphExitAnalysis : BackwardAnalysis Unit RiscEntry RiscInstruction RiscExit Unit :=
  { analyzeExit := fun s _ _ _ _ => some (s, (), some (.graph .ret ⟨[]⟩))
  , analyzeInstruction := fun s _ _ _ f => some (s, f, none)
  , analyzeEntry := fun s _ _ _ _ => some (s, []) }

/-- A one-block graph with a single instruction, so the instruction
callbacks are reached. -/
def oneInstrGraph : Graph RiscEntry RiscInstruction RiscExit :=
  Graph.fromBlocks riscLang [⟨.label 0, [.load 0 0], .ret⟩]

/-- C8.  Every engine path that receives a replace-with-sub-graph request
aborts at once with no fact base: the forward engine panics
("Unimplemented", src/dataflow/analysis.rs:202 and 222) from both the
instruction arm and the exit arm, shown as full `forward_analysis` runs;
the backward engine panics from both arms of `fixed_point_backward_block`
(src/dataflow/backward_analysis.rs:226 and 251), shown at the block level
with a seeded fact, since the public `backward_analysis` run aborts even
earlier on its empty fact base (see C5). -/
theorem c8_sub_graph_rewrite_aborts :
    forwardAnalysis riscLang unitLattice fwdGraphInstrAnalysis oneInstrGraph 0 () ()
        100 100 100 = none ∧
    forwardAnalysis riscLang unitLattice fwdGraphExitAnalysis oneInstrGraph 0 () ()
        100 100 100 = none ∧
    fixedPointBackwardBlock bwdGraphInstrAnalysis oneInstrGraph 0 100 () [(0, ())] = none ∧
    fixedPointBackwardBlock bwdGraphExitAnalysis oneInstrGraph 0 100 () [(0, ())] = none := by
  decide

/-- `ConstantPropagation` instrumented to record every (label, instruction)
pair its instruction callback is shown, in call order, in the threaded
client state; the analysis behavior is otherwise identical. -/
def loggingConstProp :
    ForwardAnalysis (List (Label × RiscInstruction)) RiscEntry RiscInstruction RiscExit
      ConstFact :=
  { analyzeEntry := fun s _ _ _ fact => some (s, fact)
  , analyzeInstruction := fun s g l instr fact =>
      match constantPropagation.analyzeInstruction () g l instr fact with
      | none => none
      | some (_, fact', rw) => some (s ++ [(l, instr)], fact', rw)
  , analyzeExit := fun s g l x fact =>
      match constantPropagation.analyzeExit () g l x fact with
      | none => none
      | some (_, r) => some (s, r) }

/-- C10.  The engines only ever read the graph (each block visit starts from
a fresh clone of `graph[label]`), so a requested rewrite is visible only for
the remainder of that visit, and the run's sole outputs are the client state
and the fact base.  Concretely, over the constant-test loop the instruction
log is: the three loads of block 0; then block 1's first visit sees the
original `Arith` and, after the requested rewrite, the replacing `Load` at
the same position; then block 1's second visit sees the original,
unrewritten `Arith` again — the clone rewritten during the first visit was
discarded, and the graph supplied the original block unchanged. -/
theorem c10_rewrites_do_not_touch_graph :
    forwardAnalysis riscLang constLattice loggingConstProp constantTestGraph 0 [] []
        100 100 100 =
      some ([(0, .load 0 0), (0, .load 1 1), (0, .load 2 5),
             (1, .arith .sub 2 2 1), (1, .load 2 4), (1, .arith .sub 2 2 1)],
            [(0, []), (1, [(0, .elem 0), (1, .elem 1), (2, .top)]),
             (2, [(0, .elem 0), (1, .elem 1), (2, .top)])]) := by
  decide

/-- If the forwarding loop returns a label within its step budget, the node
at that label is an actual instruction (the loop only stops on the
instruction arm of `forward_label`). -/
theorem forwardLabelAux_instruction {I : Type} (g : PcGraph I) :
    ∀ (fuel : Nat) (l l' : PcLabel), PcGraph.forwardLabelAux g fuel l = some l' →
      ∃ i, PcGraph.getNode g l' = some (.instruction i) := by
  intro fuel
  induction fuel with
  | zero => intro l l' h; cases h
  | succ n ih =>
    intro l l' h
    simp only [PcGraph.forwardLabelAux] at h
    cases hf : PcGraph.forwardLabel g l with
    | none => rw [hf] at h; cases h
    | some p =>
      obtain ⟨l2, cont⟩ := p
      rw [hf] at h
      cases cont with
      | false =>
        simp only at h
        cases h
        simp only [PcGraph.forwardLabel] at hf
        cases hn : PcGraph.getNode g l with
        | none => rw [hn] at hf; cases hf
        | some node =>
          cases node with
          | instruction i =>
            rw [hn] at hf
            simp only [Option.some.injEq, Prod.mk.injEq] at hf
            exact ⟨i, hf.1 ▸ hn⟩
          | subGraph n' => rw [hn] at hf; simp at hf
      | true => exact ih l2 l' h

/-- The self-referential region cycle never escapes the forwarding loop at
any step budget. -/
theorem forwardLabelAux_selfLoop_none :
    ∀ (n : Nat), PcGraph.forwardLabelAux pcSelfLoopGraph n pcEntry = none := by
  intro n
  induction n with
  | zero => rfl
  | succ k ih =>
    have hf : PcGraph.forwardLabel pcSelfLoopGraph pcEntry = some (pcEntry, true) := by decide
    simp only [PcGraph.forwardLabelAux, hf]
    exact ih

/-- C9.  Region forwarding in the nested (pc) graph: (a) by definition
`forward_label_completely` performs at most `LABEL_FORWARD_LIMIT = 10000`
forwarding steps; (b) whenever it returns a label, the node there is an
actual instruction, so `get_instruction` on a forwarded label never
observes a sub-graph marker (its "can't happen because of forwarding" arm
is unreachable, and it returns that instruction); and (c) on a
self-referential region cycle the ceiling is exhausted and the result is
the fatal "sub graph loop detected" panic, shown on the graph whose root
node 0 is a marker for the root region itself. -/
theorem c9_region_forwarding :
    (∀ (I : Type) (g : PcGraph I) (l : PcLabel),
        PcGraph.forwardLabelCompletely g l = PcGraph.forwardLabelAux g labelForwardLimit l) ∧
    (∀ (I : Type) (g : PcGraph I) (l l' : PcLabel),
        PcGraph.forwardLabelCompletely g l = some l' →
          ∃ i, PcGraph.getNode g l' = some (.instruction i) ∧
            PcGraph.getInstruction g l = some i) ∧
    (PcGraph.forwardLabelCompletely pcSelfLoopGraph pcEntry = none ∧
      PcGraph.getInstruction pcSelfLoopGraph pcEntry = none) := by
  refine ⟨fun _ _ _ => rfl, ?_, ?_, ?_⟩
  · intro I g l l' h
    obtain ⟨i, hi⟩ := forwardLabelAux_instruction g labelForwardLimit l l' h
    refine ⟨i, hi, ?_⟩
    simp only [PcGraph.getInstruction, h, hi]
  · exact forwardLabelAux_selfLoop_none labelForwardLimit
  · have h := forwardLabelAux_selfLoop_none labelForwardLimit
    simp only [PcGraph.getInstruction, PcGraph.forwardLabelCompletely, h]

/-- A nested graph whose root region holds one actual instruction at the
entry. -/
def pcInstrGraph : PcGraph Unit := ⟨[⟨0, pcEntry, [.instruction ()]⟩]⟩

/-- C9, witness: forwarding the entry of `pcInstrGraph` succeeds, and the
theorem's forwarding-result clause applied there produces the instruction. -/
theorem c9_region_forwarding_witness :
    PcGraph.forwardLabelCompletely pcInstrGraph pcEntry = some pcEntry ∧
    ∃ i, PcGraph.getNode pcInstrGraph pcEntry = some (.instruction i) ∧
      PcGraph.getInstruction pcInstrGraph pcEntry = some i :=
  ⟨by decide, c9_region_forwarding.2.1 Unit pcInstrGraph pcEntry pcEntry (by decide)⟩

/-- Looking up the key just inserted yields the inserted value. -/
theorem FactBase.find?_insert_self {F : Type} (fb : FactBase F) (k : Label) (v : F) :
    FactBase.find? (FactBase.insert fb k v) k = some v := by
  induction fb with
  | nil => simp [FactBase.insert, FactBase.find?]
  | cons p rest ih =>
    obtain ⟨k', v'⟩ := p
    by_cases h : k' = k
    · simp [FactBase.insert, FactBase.find?, h]
    · simp [FactBase.insert, FactBase.find?, h, ih]

/-- C6, counterexample.  Both source operands are known constants (0 and 1),
but the requested fold `0 - 1` underflows `usize`, which in a debug (cargo
test) build panics inside `analyze_instruction` before any rewrite is
requested — so "whenever both operands are known constants a replacement is
requested" fails at this input. -/
theorem c6_constant_folding_counterexample :
    constantPropagation.analyzeInstruction () constantTestGraph 1
      (.arith .sub 2 0 1) [(0, .elem 0), (1, .elem 1)] = none := by
  rfl

/-- C6, amended.  Whenever `analyze_instruction` sees an `Arith` whose two
source operands are known constants in the current fact *and* the fold does
not overflow debug `usize` arithmetic, it requests a single-instruction
replacement with a `Load` of the folded value (leaving the fact unchanged);
the engine then re-runs the same code index, so the following
`forwardBlockLoop` step analyzes the replacing `Load` against the same
fact, which binds the destination variable to the folded constant — the
post-rewrite re-analysis sees the new constant fact. -/
theorem c6_constant_folding (fact : ConstFact) (op : ArithOp) (dst src1 src2 : Var)
    (c1 c2 r : Constant)
    (h1 : getConst fact src1 = some c1) (h2 : getConst fact src2 = some c2)
    (hr : evalArith op c1 c2 = some r) :
    (∀ (g : Graph RiscEntry RiscInstruction RiscExit) (l : Label),
        constantPropagation.analyzeInstruction () g l (.arith op dst src1 src2) fact =
          some ((), fact, some (.single (.load dst r)))) ∧
    (∀ (g : Graph RiscEntry RiscInstruction RiscExit) (l : Label) (fuel : Nat)
        (code : List RiscInstruction) (x : RiscExit) (index : Nat),
        code[index]? = some (.arith op dst src1 src2) →
          forwardBlockLoop constantPropagation g l (fuel + 1) () code x index fact =
            forwardBlockLoop constantPropagation g l fuel ()
              (code.set index (.load dst r)) x index fact) ∧
    (∀ (g : Graph RiscEntry RiscInstruction RiscExit) (l : Label),
        constantPropagation.analyzeInstruction () g l (.load dst r) fact =
          some ((), FactBase.insert fact dst (.elem r), none) ∧
        getConst (FactBase.insert fact dst (.elem r)) dst = some r) := by
  refine ⟨?_, ?_, ?_⟩
  · intro g l
    simp [constantPropagation, h1, h2, hr]
  · intro g l fuel code x index hcode
    conv_lhs => rw [forwardBlockLoop]
    simp [hcode, constantPropagation, h1, h2, hr]
  · intro g l
    constructor
    · simp [constantPropagation]
    · simp [getConst, FactBase.find?_insert_self]

/-- C6, witness: with variables 0 ↦ 5 and 1 ↦ 1 known, folding
`Arith(Sub, 2, 0, 1)` requests `Load(2, 4)`, and re-analysis of that `Load`
binds variable 2 to 4. -/
theorem c6_constant_folding_witness :
    constantPropagation.analyzeInstruction () constantTestGraph 1
        (.arith .sub 2 0 1) [(0, .elem 5), (1, .elem 1)] =
      some ((), [(0, .elem 5), (1, .elem 1)], some (.single (.load 2 4))) ∧
    constantPropagation.analyzeInstruction () constantTestGraph 1 (.load 2 4)
        [(0, .elem 5), (1, .elem 1)] =
      some ((), FactBase.insert [(0, .elem 5), (1, .elem 1)] 2 (.elem 4), none) ∧
    getConst (FactBase.insert [(0, .elem 5), (1, .elem 1)] 2 (.elem 4)) 2 = some 4 := by
  have h := c6_constant_folding [(0, .elem 5), (1, .elem 1)] .sub 2 0 1 5 1 4
    (by rfl) (by rfl) (by rfl)
  exact ⟨h.1 constantTestGraph 1, (h.2.2 constantTestGraph 1).1, (h.2.2 constantTestGraph 1).2⟩

/-- A label reachable from `entry` by following block successors. -/
inductive ReachableFrom {E I X : Type} (L : Lang E X) (g : Graph E I X) (entry : Label) :
    Label → Prop where
  | refl : ReachableFrom L g entry entry
  | step (m l : Label) (b : BasicBlock E I X) : ReachableFrom L g entry m →
      g.find? m = some b → l ∈ L.successors b.exit → ReachableFrom L g entry l

/-- `x` is present in the graph and all its successors lie in `vis`. -/
def closedIn {E I X : Type} (L : Lang E X) (g : Graph E I X)
    (vis : List Label) (x : Label) : Prop :=
  ∃ b, g.find? x = some b ∧ ∀ s ∈ L.successors b.exit, s ∈ vis

theorem closedIn_mono {E I X : Type} {L : Lang E X} {g : Graph E I X}
    {vis vis₂ : List Label} {x : Label} (hsub : ∀ y ∈ vis, y ∈ vis₂)
    (h : closedIn L g vis x) : closedIn L g vis₂ x := by
  obtain ⟨b, hb, hs⟩ := h
  exact ⟨b, hb, fun s hsm => hsub s (hs s hsm)⟩

/-- Specification of a successful `poGoList` run given a specification of
its step function: the visited set grows, every listed label ends up
visited, and every visited label was already visited or is present with all
its successors visited. -/
theorem poGoList_spec {E I X : Type} (L : Lang E X) (g : Graph E I X)
    (step : List Label → List Label → Label → Option (List Label × List Label))
    (hstep : ∀ vis out l vis' out', step vis out l = some (vis', out') →
      (∀ y ∈ vis, y ∈ vis') ∧ l ∈ vis' ∧
        ∀ x ∈ vis', x ∈ vis ∨ closedIn L g vis' x) :
    ∀ (ls vis out : List Label) (vis' out' : List Label),
      poGoList step vis out ls = some (vis', out') →
        (∀ y ∈ vis, y ∈ vis') ∧ (∀ s ∈ ls, s ∈ vis') ∧
          ∀ x ∈ vis', x ∈ vis ∨ closedIn L g vis' x := by
  intro ls
  induction ls with
  | nil =>
    intro vis out vis' out' h
    simp only [poGoList, Option.some.injEq, Prod.mk.injEq] at h
    obtain ⟨rfl, rfl⟩ := h
    exact ⟨fun y hy => hy, by simp, fun x hx => Or.inl hx⟩
  | cons s rest ih =>
    intro vis out vis' out' h
    simp only [poGoList] at h
    cases h1 : step vis out s with
    | none => rw [h1] at h; cases h
    | some p =>
      obtain ⟨v1, o1⟩ := p
      rw [h1] at h
      simp only at h
      obtain ⟨hmono1, hsmem, hclosed1⟩ := hstep vis out s v1 o1 h1
      obtain ⟨hmono2, hrest, hclosed2⟩ := ih v1 o1 vis' out' h
      refine ⟨fun y hy => hmono2 y (hmono1 y hy), ?_, ?_⟩
      · intro t ht
        rcases List.mem_cons.mp ht with rfl | ht
        · exact hmono2 t hsmem
        · exact hrest t ht
      · intro x hx
        rcases hclosed2 x hx with hx1 | hcl
        · rcases hclosed1 x hx1 with hx0 | hcl
          · exact Or.inl hx0
          · exact Or.inr (closedIn_mono hmono2 hcl)
        · exact Or.inr hcl

/-- Specification of a successful `poGo` run: the visited set grows, the
argument label ends up visited, and every visited label was already visited
or is present in the graph with all its successors visited. -/
theorem poGo_spec {E I X : Type} (L : Lang E X) (g : Graph E I X) :
    ∀ (fuel : Nat) (vis out : List Label) (l : Label) (vis' out' : List Label),
      poGo L g fuel vis out l = some (vis', out') →
        (∀ y ∈ vis, y ∈ vis') ∧ l ∈ vis' ∧
          ∀ x ∈ vis', x ∈ vis ∨ closedIn L g vis' x := by
  intro fuel
  induction fuel with
  | zero => intro vis out l vis' out' h; cases h
  | succ n ih =>
    intro vis out l vis' out' h
    simp only [poGo] at h
    by_cases hl : l ∈ vis
    · rw [if_pos hl] at h
      simp only [Option.some.injEq, Prod.mk.injEq] at h
      obtain ⟨rfl, rfl⟩ := h
      exact ⟨fun y hy => hy, hl, fun x hx => Or.inl hx⟩
    · rw [if_neg hl] at h
      cases hb : g.find? l with
      | none => rw [hb] at h; cases h
      | some b =>
        rw [hb] at h
        dsimp only at h
        cases hlist : poGoList (poGo L g n) (l :: vis) out (L.successors b.exit) with
        | none => rw [hlist] at h; cases h
        | some p =>
          obtain ⟨v1, o1⟩ := p
          rw [hlist] at h
          simp only [Option.some.injEq, Prod.mk.injEq] at h
          obtain ⟨rfl, rfl⟩ := h
          obtain ⟨hmono, hsuccs, hclosed⟩ :=
            poGoList_spec L g (poGo L g n) (ih) (L.successors b.exit) (l :: vis) out v1 o1
              hlist
          have hlmem : l ∈ v1 := hmono l (List.mem_cons_self _ _)
          refine ⟨fun y hy => hmono y (List.mem_cons_of_mem _ hy), hlmem, ?_⟩
          intro x hx
          rcases hclosed x hx with hx1 | hcl
          · rcases List.mem_cons.mp hx1 with rfl | hx0
            · exact Or.inr ⟨b, hb, hsuccs⟩
            · exact Or.inl hx0
          · exact Or.inr hcl

/-- Every label reachable from the entry appears in the visited set of a
successful traversal started from an empty visited set. -/
theorem reachable_mem_visited {E I X : Type} (L : Lang E X) (g : Graph E I X)
    (entry : Label) (fuel : Nat) (vis' out' : List Label)
    (h : poGo L g fuel [] [] entry = some (vis', out')) :
    ∀ x, ReachableFrom L g entry x → x ∈ vis' := by
  have hspec := poGo_spec L g fuel [] [] entry vis' out' h
  intro x hx
  induction hx with
  | refl => exact hspec.2.1
  | step m l b _ hfind hsucc ihm =>
    rcases hspec.2.2 m ihm with hm | hcl
    · cases hm
    · obtain ⟨b', hb', hs⟩ := hcl
      rw [hfind] at hb'
      cases hb'
      exact hs l hsucc

/-- A graph whose single block 0 jumps to label 99, which resolves to no
block of the graph. -/
def externalSuccGraph : Graph RiscEntry RiscInstruction RiscExit :=
  Graph.fromBlocks riscLang [⟨.label 0, [], .jump 99⟩]

/-- C7, counterexample.  A successor label absent from the graph is *not*
skipped: `post_order_traversal` indexes `graph.blocks[&label]` for every
label it visits, so the initial traversal panics on the external label 99
and the whole forward run aborts instead of continuing. -/
theorem c7_external_label_counterexample :
    forwardAnalysis riscLang domLattice (dominatorAnalysis riscLang) externalSuccGraph 0
      (none : DominatorFact) () 100 100 100 = none := by
  decide

/-- C7, amended.  Whenever any label reachable by following successors from
the entry does not resolve to a block of the graph, the forward engine
fails rather than skipping it: the initial post-order traversal panics on
that label (at any recursion budget), so `forward_analysis` aborts for
every analysis, lattice and fuel.  The worklist loop's skip branch exists
(src/dataflow/analysis.rs:141-144) but is unreachable for such labels,
because only labels the successful traversal already visited — all present
in the graph — ever enter the worklist. -/
theorem c7_external_label_aborts {E I X : Type} (L : Lang E X) (g : Graph E I X)
    (entry x : Label) (hreach : ReachableFrom L g entry x)
    (hmiss : g.contains x = false) :
    (∀ fuel, postOrderTraversal L g fuel entry = none) ∧
    (∀ (S F : Type) (lat : LatticeContract F) (A : ForwardAnalysis S E I X F)
        (s0 : S) (f0 : F) (pf of bf : Nat),
        forwardAnalysis L lat A g entry f0 s0 pf of bf = none) := by
  have hpo : ∀ fuel, poGo L g fuel [] [] entry = none := by
    intro fuel
    cases hgo : poGo L g fuel [] [] entry with
    | none => rfl
    | some p =>
      obtain ⟨vis', out'⟩ := p
      have hx := reachable_mem_visited L g entry fuel vis' out' hgo x hreach
      rcases (poGo_spec L g fuel [] [] entry vis' out' hgo).2.2 x hx with h0 | hcl
      · cases h0
      · obtain ⟨b, hb, -⟩ := hcl
        rw [Graph.contains, hb] at hmiss
        cases hmiss
  constructor
  · intro fuel
    rw [postOrderTraversal, hpo fuel]
  · intro S F lat A s0 f0 pf of bf
    rw [forwardAnalysis, postOrderTraversal, hpo pf]

/-- C7, witness: in `externalSuccGraph` the external label 99 is reachable
from the entry 0 and absent, and the amended theorem applied there makes
both the traversal and the dominator-analysis run abort. -/
theorem c7_external_label_aborts_witness :
    postOrderTraversal riscLang externalSuccGraph 100 0 = none ∧
    forwardAnalysis riscLang domLattice (dominatorAnalysis riscLang) externalSuccGraph 0
      (none : DominatorFact) () 100 100 100 = none := by
  have hreach : ReachableFrom riscLang externalSuccGraph 0 99 :=
    .step 0 99 ⟨.label 0, [], .jump 99⟩ .refl (by rfl) (by decide)
  have h := c7_external_label_aborts riscLang externalSuccGraph 0 99 hreach (by decide)
  exact ⟨h.1 100, h.2 Unit DominatorFact domLattice (dominatorAnalysis riscLang) () none
    100 100 100⟩

/-- `forward_analysis` terminates on the given inputs: some combination of
traversal, worklist and block fuel makes the embedded run return a result
(i.e. the Rust loops reach a fixed point instead of iterating forever). -/
def forwardTerminates {S E I X F : Type} (L : Lang E X) (lat : LatticeContract F)
    (A : ForwardAnalysis S E I X F) (g : Graph E I X) (entry : Label) (f0 : F)
    (s0 : S) : Prop :=
  ∃ pf of bf, (forwardAnalysis L lat A g entry f0 s0 pf of bf).isSome

/-- A client over the one-point lattice whose exit callback always requests
a `Single` exit replacement: every request is type-correct and the fact
type has ascending chains of length one, yet the block loop never reaches a
`Done`. -/
def rewriteForeverAnalysis : ForwardAnalysis Unit RiscEntry RiscInstruction RiscExit Unit :=
  { analyzeEntry := fun s _ _ _ f => some (s, f)
  , analyzeInstruction := fun s _ _ _ f => some (s, f, none)
  , analyzeExit := fun s _ _ _ _ => some (s, .single .ret) }

/-- The block loop under `rewriteForeverAnalysis` spins on the exit arm for
ever: no fuel suffices. -/
theorem rewriteForever_blockLoop_none (g : Graph RiscEntry RiscInstruction RiscExit)
    (l : Label) : ∀ (fuel : Nat) (x : RiscExit) (index : Nat),
    forwardBlockLoop rewriteForeverAnalysis g l fuel () [] x index () = none := by
  intro fuel
  induction fuel with
  | zero => intro x index; rfl
  | succ n ih =>
    intro x index
    simp only [forwardBlockLoop, List.getElem?_nil, rewriteForeverAnalysis]
    exact ih .ret index

/-- C3, counterexample.  The claim quantifies over every analysis whose
fact type satisfies the lattice contract; `rewriteForeverAnalysis` uses the
one-point lattice (trivially of bounded chain height, idempotent and
monotone), yet `forward_analysis` on the one-block graph never returns:
`fixed_point_forward_block` only leaves its `loop` through the `Done` arm,
and this client answers every exit query with a `Single` rewrite. -/
theorem c3_termination_counterexample :
    ¬ forwardTerminates riscLang unitLattice rewriteForeverAnalysis oneBlockGraph 0 () () := by
  rintro ⟨pf, of, bf, hsome⟩
  rw [forwardAnalysis] at hsome
  cases hpo : postOrderTraversal riscLang oneBlockGraph pf 0 with
  | none => rw [hpo] at hsome; cases hsome
  | some tv =>
    rw [hpo] at hsome
    have htv : tv = [0] := by
      have : pf = 0 ∨ ∃ m, pf = m + 1 := by
        cases pf with
        | zero => exact Or.inl rfl
        | succ m => exact Or.inr ⟨m, rfl⟩
      rcases this with rfl | ⟨m, rfl⟩
      · cases hpo
      · have : postOrderTraversal riscLang oneBlockGraph (m + 1) 0 = some [0] := by
          rw [postOrderTraversal]
          rfl
        rw [this] at hpo
        exact (Option.some.injEq .. ▸ hpo).symm
    subst htv
    cases of with
    | zero => cases hsome
    | succ n =>
      simp only [forwardLoop] at hsome
      rw [show ([0] : List Label).getLast? = some 0 from rfl] at hsome
      dsimp only at hsome
      rw [show Graph.contains oneBlockGraph 0 = true from rfl] at hsome
      simp only [if_true] at hsome
      rw [show fixedPointForwardBlock rewriteForeverAnalysis oneBlockGraph 0 bf ()
            (FactBase.insert [] 0 ()) =
          forwardBlockLoop rewriteForeverAnalysis oneBlockGraph 0 bf () [] .ret 0 () from rfl,
        rewriteForever_blockLoop_none oneBlockGraph 0 bf .ret 0] at hsome
      cases hsome

/-- Full description of lookup after insertion. -/
theorem FactBase.find?_insert {F : Type} (fb : FactBase F) (k x : Label) (v : F) :
    FactBase.find? (FactBase.insert fb k v) x =
      if k = x then some v else FactBase.find? fb x := by
  induction fb with
  | nil => by_cases h : k = x <;> simp [FactBase.insert, FactBase.find?, h]
  | cons p rest ih =>
    obtain ⟨k', v'⟩ := p
    by_cases hk : k' = k
    · subst hk
      by_cases hx : k' = x <;> simp [FactBase.insert, FactBase.find?, hx]
    · by_cases hx : k' = x
      · subst hx
        have : k ≠ k' := fun h => hk h.symm
        simp [FactBase.insert, FactBase.find?, hk, this]
      · simp [FactBase.insert, FactBase.find?, hk, hx, ih]

/-- A successful lookup exhibits a member of the association list. -/
theorem FactBase.mem_of_find? {F : Type} (fb : FactBase F) (k : Label) (v : F)
    (h : FactBase.find? fb k = some v) : (k, v) ∈ fb := by
  induction fb with
  | nil => cases h
  | cons p rest ih =>
    obtain ⟨k', v'⟩ := p
    by_cases hk : k' = k
    · subst hk
      rw [FactBase.find?, if_pos rfl] at h
      injection h with h
      subst h
      exact List.mem_cons_self _ _
    · rw [FactBase.find?, if_neg hk] at h
      exact List.mem_cons_of_mem _ (ih h)

/-- Every label that can ever be a join target: the successors of all blocks
of the graph.  The worklist loop only joins into labels drawn from a block's
successor list, so this finite set bounds the fact base entries whose rank
the termination measure must track. -/
def succUniverse {E I X : Type} (L : Lang E X) (g : Graph E I X) : Finset Label :=
  (g.blocks.map (fun p => L.successors p.2.exit)).flatten.toFinset

theorem mem_succUniverse {E I X : Type} (L : Lang E X) (g : Graph E I X)
    (l : Label) (b : BasicBlock E I X) (h : g.find? l = some b) :
    ∀ s ∈ L.successors b.exit, s ∈ succUniverse L g := by
  intro s hs
  have hmem : (l, b) ∈ g.blocks := FactBase.mem_of_find? g.blocks l b h
  simp only [succUniverse, List.mem_toFinset, List.mem_flatten]
  exact ⟨L.successors b.exit, List.mem_map.mpr ⟨(l, b), hmem, rfl⟩, hs⟩

theorem succsOfLabel_subset_univ {E I X : Type} (L : Lang E X) (g : Graph E I X)
    (l : Label) : ∀ s ∈ succsOfLabel L g l, s ∈ succUniverse L g := by
  intro s hs
  rw [succsOfLabel] at hs
  cases hb : g.find? l with
  | none => rw [hb] at hs; cases hs
  | some b =>
    rw [hb] at hs
    exact mem_succUniverse L g l b hb s hs

/-- The termination measure's fact component: the total remaining rank of
the facts at all potential join targets. -/
def rankSum {E I X F : Type} (L : Lang E X) (g : Graph E I X)
    (lat : LatticeContract F) (rank : F → Nat) (fb : FactBase F) : Nat :=
  ∑ l ∈ succUniverse L g, rank (FactBase.findD fb l lat.bottom)

theorem FactBase.findD_insert_self {F : Type} (fb : FactBase F) (k : Label) (v d : F) :
    FactBase.findD (FactBase.insert fb k v) k d = v := by
  rw [FactBase.findD, FactBase.find?_insert, if_pos rfl, Option.getD_some]

theorem FactBase.findD_insert_ne {F : Type} (fb : FactBase F) (k x : Label) (v d : F)
    (h : k ≠ x) : FactBase.findD (FactBase.insert fb k v) x d = FactBase.findD fb x d := by
  rw [FactBase.findD, FactBase.find?_insert, if_neg h, FactBase.findD]

/-- Inserting at a tracked label a fact of no larger rank cannot increase
the measure. -/
theorem rankSum_insert_le {E I X F : Type} (L : Lang E X) (g : Graph E I X)
    (lat : LatticeContract F) (rank : F → Nat) (fb : FactBase F) (s : Label) (v : F)
    (hle : rank v ≤ rank (FactBase.findD fb s lat.bottom)) :
    rankSum L g lat rank (FactBase.insert fb s v) ≤ rankSum L g lat rank fb := by
  refine Finset.sum_le_sum ?_
  intro l _
  by_cases h : s = l
  · subst h
    rw [FactBase.findD_insert_self]
    exact hle
  · rw [FactBase.findD_insert_ne fb s l v lat.bottom h]

/-- Inserting at a tracked label a fact of strictly smaller rank strictly
decreases the measure. -/
theorem rankSum_insert_lt {E I X F : Type} (L : Lang E X) (g : Graph E I X)
    (lat : LatticeContract F) (rank : F → Nat) (fb : FactBase F) (s : Label) (v : F)
    (hmem : s ∈ succUniverse L g)
    (hlt : rank v < rank (FactBase.findD fb s lat.bottom)) :
    rankSum L g lat rank (FactBase.insert fb s v) < rankSum L g lat rank fb := by
  refine Finset.sum_lt_sum ?_ ⟨s, hmem, ?_⟩
  · intro l _
    by_cases h : s = l
    · subst h
      rw [FactBase.findD_insert_self]
      exact Nat.le_of_lt hlt
    · rw [FactBase.findD_insert_ne fb s l v lat.bottom h]
  · rw [FactBase.findD_insert_self]
    exact hlt

/-- Re-inserting the value a label already maps to (under the default)
leaves the measure unchanged. -/
theorem rankSum_insert_eq {E I X F : Type} (L : Lang E X) (g : Graph E I X)
    (lat : LatticeContract F) (rank : F → Nat) (fb : FactBase F) (s : Label) (v : F)
    (hv : v = FactBase.findD fb s lat.bottom) :
    rankSum L g lat rank (FactBase.insert fb s v) = rankSum L g lat rank fb := by
  refine Finset.sum_congr rfl ?_
  intro l _
  by_cases h : s = l
  · subst h
    rw [FactBase.findD_insert_self, hv]
  · rw [FactBase.findD_insert_ne fb s l v lat.bottom h]

/-- The worklist invariant of the forward engine: every pending label either
already has a fact in the fact base, or some label nearer the top of the
stack (later in the list) is present in the graph and lists it as a
successor — so by the time it is popped its fact will have been seeded by a
join.  The Rust code relies on this silently: its
`expect("We should always have a fact to start from")` is exactly the claim
that the popped label satisfies the first disjunct. -/
def stackOk {E I X F : Type} (L : Lang E X) (g : Graph E I X) (fb : FactBase F) :
    List Label → Prop
  | [] => True
  | x :: rest =>
    ((FactBase.find? fb x).isSome ∨
      ∃ y b, y ∈ rest ∧ g.find? y = some b ∧ x ∈ L.successors b.exit) ∧
    stackOk L g fb rest

theorem stackOk_mono {E I X F : Type} (L : Lang E X) (g : Graph E I X)
    {fb fb' : FactBase F}
    (hmono : ∀ x, (FactBase.find? fb x).isSome → (FactBase.find? fb' x).isSome) :
    ∀ tv, stackOk L g fb tv → stackOk L g fb' tv := by
  intro tv
  induction tv with
  | nil => intro h; exact h
  | cons x rest ih =>
    rintro ⟨hx, hrest⟩
    refine ⟨?_, ih hrest⟩
    rcases hx with hx | hx
    · exact Or.inl (hmono x hx)
    · exact Or.inr hx

/-- Appending a label that has a fact preserves the invariant. -/
theorem stackOk_append_fact {E I X F : Type} (L : Lang E X) (g : Graph E I X)
    (fb : FactBase F) (s : Label) (hs : (FactBase.find? fb s).isSome) :
    ∀ tv, stackOk L g fb tv → stackOk L g fb (tv ++ [s]) := by
  intro tv
  induction tv with
  | nil => intro _; exact ⟨Or.inl hs, trivial⟩
  | cons x rest ih =>
    rintro ⟨hx, hrest⟩
    refine ⟨?_, ih hrest⟩
    rcases hx with hx | ⟨y, b, hy, hb, hsucc⟩
    · exact Or.inl hx
    · exact Or.inr ⟨y, b, List.mem_append_left _ hy, hb, hsucc⟩

/-- The top of a stack satisfying the invariant always has a fact (there is
nothing above it to act as a witness). -/
theorem stackOk_last {E I X F : Type} (L : Lang E X) (g : Graph E I X)
    (fb : FactBase F) (t : Label) :
    ∀ init, stackOk L g fb (init ++ [t]) → (FactBase.find? fb t).isSome := by
  intro init
  induction init with
  | nil =>
    rintro ⟨hx, -⟩
    rcases hx with hx | ⟨y, b, hy, -, -⟩
    · exact hx
    · cases hy
  | cons x rest ih =>
    rintro ⟨-, hrest⟩
    exact ih hrest

/-- Popping a label that is not in the graph preserves the invariant: no
witness can have pointed at it. -/
theorem stackOk_pop_absent {E I X F : Type} (L : Lang E X) (g : Graph E I X)
    (fb : FactBase F) (t : Label) (ht : g.find? t = none) :
    ∀ init, stackOk L g fb (init ++ [t]) → stackOk L g fb init := by
  intro init
  induction init with
  | nil => intro _; trivial
  | cons x rest ih =>
    rintro ⟨hx, hrest⟩
    refine ⟨?_, ih hrest⟩
    rcases hx with hx | ⟨y, b, hy, hb, hsucc⟩
    · exact Or.inl hx
    · rcases List.mem_append.mp hy with hy | hy
      · exact Or.inr ⟨y, b, hy, hb, hsucc⟩
      · rw [List.mem_singleton.mp hy] at hb
        rw [ht] at hb
        cases hb
/-- Popping a label of the graph preserves the invariant provided every
successor of its block has received a fact. -/
theorem stackOk_pop_present {E I X F : Type} (L : Lang E X) (g : Graph E I X)
    {fb fb' : FactBase F} (t : Label) (b : BasicBlock E I X) (ht : g.find? t = some b)
    (hmono : ∀ x, (FactBase.find? fb x).isSome → (FactBase.find? fb' x).isSome)
    (hsucc : ∀ s ∈ L.successors b.exit, (FactBase.find? fb' s).isSome) :
    ∀ init, stackOk L g fb (init ++ [t]) → stackOk L g fb' init := by
  intro init
  induction init with
  | nil => intro _; trivial
  | cons x rest ih =>
    rintro ⟨hx, hrest⟩
    refine ⟨?_, ih hrest⟩
    rcases hx with hx | ⟨y, b', hy, hb', hsucc'⟩
    · exact Or.inl (hmono x hx)
    · rcases List.mem_append.mp hy with hy | hy
      · exact Or.inr ⟨y, b', hy, hb', hsucc'⟩
      · rw [List.mem_singleton.mp hy] at hb'
        rw [ht] at hb'
        injection hb' with hb'
        subst hb'
        exact Or.inl (hsucc x hsucc')

/-- Every element of the list except the last has, later in the list, a
label present in the graph that lists it as a successor.  This is the order
property of the post-order traversal that makes the forward worklist sound
as a stack: a label's depth-first parent is appended after it. -/
def segOk {E I X : Type} (L : Lang E X) (g : Graph E I X) : List Label → Prop
  | [] => True
  | [_] => True
  | x :: rest =>
    (∃ y b, y ∈ rest ∧ g.find? y = some b ∧ x ∈ L.successors b.exit) ∧ segOk L g rest

/-- As `segOk`, except that designated labels (the successors of a pending
parent, which will be appended after this segment) are excused. -/
def segOkMod {E I X : Type} (L : Lang E X) (g : Graph E I X) (special : List Label) :
    List Label → Prop
  | [] => True
  | x :: rest =>
    (x ∈ special ∨ ∃ y b, y ∈ rest ∧ g.find? y = some b ∧ x ∈ L.successors b.exit) ∧
    segOkMod L g special rest

theorem segOkMod_append {E I X : Type} (L : Lang E X) (g : Graph E I X)
    (special : List Label) :
    ∀ Δ₁ Δ₂, segOkMod L g special Δ₁ → segOkMod L g special Δ₂ →
      segOkMod L g special (Δ₁ ++ Δ₂) := by
  intro Δ₁
  induction Δ₁ with
  | nil => intro Δ₂ _ h₂; exact h₂
  | cons x rest ih =>
    rintro Δ₂ ⟨hx, hrest⟩ h₂
    refine ⟨?_, ih Δ₂ hrest h₂⟩
    rcases hx with hx | ⟨y, b, hy, hb, hs⟩
    · exact Or.inl hx
    · exact Or.inr ⟨y, b, List.mem_append_left _ hy, hb, hs⟩

/-- Appending the pending parent discharges the excused labels: the result
satisfies the unconditional order property. -/
theorem segOkMod_append_parent {E I X : Type} (L : Lang E X) (g : Graph E I X)
    (l : Label) (b : BasicBlock E I X) (hb : g.find? l = some b) :
    ∀ Δ, segOkMod L g (L.successors b.exit) Δ → segOk L g (Δ ++ [l]) := by
  intro Δ
  induction Δ with
  | nil => intro _; trivial
  | cons x rest ih =>
    rintro ⟨hx, hrest⟩
    have htail : segOk L g (rest ++ [l]) := ih hrest
    have hwit : ∃ y b', y ∈ rest ++ [l] ∧ g.find? y = some b' ∧ x ∈ L.successors b'.exit := by
      rcases hx with hx | ⟨y, b', hy, hb', hs⟩
      · exact ⟨l, b, List.mem_append_right _ (List.mem_singleton_self l), hb, hx⟩
      · exact ⟨y, b', List.mem_append_left _ hy, hb', hs⟩
    cases hr : rest ++ [l] with
    | nil => exact absurd hr (by simp)
    | cons z zs =>
      rw [List.cons_append, hr]
      exact ⟨hr ▸ hwit, hr ▸ htail⟩

/-- A `segOk` list whose last element has a fact satisfies the worklist
invariant. -/
theorem segOk_stackOk {E I X F : Type} (L : Lang E X) (g : Graph E I X)
    (fb : FactBase F) (e : Label) (he : (FactBase.find? fb e).isSome) :
    ∀ xs, segOk L g xs → xs.getLast? = some e → stackOk L g fb xs := by
  intro xs
  induction xs with
  | nil => intro _ hlast; cases hlast
  | cons x rest ih =>
    intro hseg hlast
    cases hr : rest with
    | nil =>
      subst hr
      simp only [List.getLast?_singleton, Option.some.injEq] at hlast
      subst hlast
      exact ⟨Or.inl he, trivial⟩
    | cons z zs =>
      subst hr
      obtain ⟨hx, hrest⟩ := hseg
      have hlast' : (z :: zs).getLast? = some e := by
        rw [← hlast]
        exact (List.getLast?_cons_cons ..).symm
      exact ⟨Or.inr hx, ih hrest hlast'⟩

theorem segOk_to_segOkMod {E I X : Type} (L : Lang E X) (g : Graph E I X)
    (special : List Label) (l : Label) (hl : l ∈ special) :
    ∀ xs, segOk L g xs → xs.getLast? = some l → segOkMod L g special xs := by
  intro xs
  induction xs with
  | nil => intro _ hlast; cases hlast
  | cons x rest ih =>
    intro hseg hlast
    cases hr : rest with
    | nil =>
      subst hr
      simp only [List.getLast?_singleton, Option.some.injEq] at hlast
      subst hlast
      exact ⟨Or.inl hl, trivial⟩
    | cons z zs =>
      subst hr
      obtain ⟨hx, hrest⟩ := hseg
      have hlast' : (z :: zs).getLast? = some l := by
        rw [← hlast]
        exact (List.getLast?_cons_cons ..).symm
      exact ⟨Or.inr hx, ih hrest hlast'⟩

/-- Order property of a `poGoList` run: it appends a segment in which every
label has a later in-graph witness, except possibly labels of the supplied
successor list (whose witness, the parent, is appended afterwards). -/
theorem poGoList_order {E I X : Type} (L : Lang E X) (g : Graph E I X)
    (step : List Label → List Label → Label → Option (List Label × List Label))
    (hstep : ∀ vis out l vis' out', step vis out l = some (vis', out') →
      ∃ Δ, out' = out ++ Δ ∧ (Δ = [] ∨ Δ.getLast? = some l) ∧ segOk L g Δ)
    (special : List Label) :
    ∀ (ls vis out vis' out' : List Label), (∀ s ∈ ls, s ∈ special) →
      poGoList step vis out ls = some (vis', out') →
        ∃ Δ, out' = out ++ Δ ∧ segOkMod L g special Δ := by
  intro ls
  induction ls with
  | nil =>
    intro vis out vis' out' _ h
    simp only [poGoList, Option.some.injEq, Prod.mk.injEq] at h
    exact ⟨[], by simp [h.2.symm], trivial⟩
  | cons s rest ih =>
    intro vis out vis' out' hsub h
    simp only [poGoList] at h
    cases h1 : step vis out s with
    | none => rw [h1] at h; cases h
    | some p =>
      obtain ⟨v1, o1⟩ := p
      rw [h1] at h
      dsimp only at h
      obtain ⟨Δ₁, rfl, hlast₁, hseg₁⟩ := hstep vis out s v1 o1 h1
      obtain ⟨Δ₂, rfl, hmod₂⟩ :=
        ih v1 (out ++ Δ₁) vis' out' (fun x hx => hsub x (List.mem_cons_of_mem _ hx)) h
      refine ⟨Δ₁ ++ Δ₂, List.append_assoc .., ?_⟩
      refine segOkMod_append L g special Δ₁ Δ₂ ?_ hmod₂
      rcases hlast₁ with rfl | hlast₁
      · trivial
      · exact segOk_to_segOkMod L g special s (hsub s (List.mem_cons_self _ _)) Δ₁ hseg₁
          hlast₁

/-- Order property of a `poGo` run: it appends a segment ending in its
argument label in which every non-final label has a later in-graph
witness. -/
theorem poGo_order {E I X : Type} (L : Lang E X) (g : Graph E I X) :
    ∀ (fuel : Nat) (vis out : List Label) (l : Label) (vis' out' : List Label),
      poGo L g fuel vis out l = some (vis', out') →
        ∃ Δ, out' = out ++ Δ ∧ (Δ = [] ∨ Δ.getLast? = some l) ∧ segOk L g Δ := by
  intro fuel
  induction fuel with
  | zero => intro vis out l vis' out' h; cases h
  | succ n ih =>
    intro vis out l vis' out' h
    simp only [poGo] at h
    by_cases hl : l ∈ vis
    · rw [if_pos hl] at h
      simp only [Option.some.injEq, Prod.mk.injEq] at h
      exact ⟨[], by simp [h.2.symm], Or.inl rfl, trivial⟩
    · rw [if_neg hl] at h
      cases hb : g.find? l with
      | none => rw [hb] at h; cases h
      | some b =>
        rw [hb] at h
        dsimp only at h
        cases hlist : poGoList (poGo L g n) (l :: vis) out (L.successors b.exit) with
        | none => rw [hlist] at h; cases h
        | some p =>
          obtain ⟨v1, o1⟩ := p
          rw [hlist] at h
          simp only [Option.some.injEq, Prod.mk.injEq] at h
          obtain ⟨rfl, rfl⟩ := h
          obtain ⟨Δ₁, rfl, hmod⟩ := poGoList_order L g (poGo L g n) ih
            (L.successors b.exit) (L.successors b.exit) (l :: vis) out v1 o1
            (fun x hx => hx) hlist
          refine ⟨Δ₁ ++ [l], List.append_assoc .., Or.inr ?_, ?_⟩
          · exact List.getLast?_concat ..
          · exact segOkMod_append_parent L g l b hb Δ₁ hmod

/-- Full specification of the successor-join loop under an honest,
bounded-rank, total join: it succeeds, it does not increase the measure
(every push is paid for by a strict rank drop at the pushed label), facts
are only ever added, every processed successor ends up with a fact, and the
worklist invariant is preserved. -/
theorem joinSuccessors_spec {E I X F : Type} (L : Lang E X) (g : Graph E I X)
    (lat : LatticeContract F) (rank : F → Nat)
    (hrank : ∀ a b l a', lat.join a b l = some (a', true) → rank a' < rank a)
    (hnochange : ∀ a b l a', lat.join a b l = some (a', false) → a' = a)
    (htotal : ∀ a b l, (lat.join a b l).isSome) :
    ∀ (succs : List Label) (fb out : FactBase F) (tv : List Label),
      (∀ s ∈ succs, s ∈ succUniverse L g) →
      (∀ s ∈ succs, (FactBase.find? out s).isSome) →
      ∃ fb' tv', joinSuccessors lat succs fb out tv = some (fb', tv') ∧
        rankSum L g lat rank fb' + tv'.length ≤ rankSum L g lat rank fb + tv.length ∧
        (∀ x, (FactBase.find? fb x).isSome → (FactBase.find? fb' x).isSome) ∧
        (∀ s ∈ succs, (FactBase.find? fb' s).isSome) ∧
        (stackOk L g fb' tv → stackOk L g fb' tv') := by
  intro succs
  induction succs with
  | nil =>
    intro fb out tv _ _
    exact ⟨fb, tv, rfl, le_refl _, fun _ h => h, fun s hs => absurd hs (List.not_mem_nil s),
      fun h => h⟩
  | cons s rest ih =>
    intro fb out tv hsub hcov
    obtain ⟨outFact, hout⟩ :=
      Option.isSome_iff_exists.mp (hcov s (List.mem_cons_self _ _))
    obtain ⟨⟨joined, changed⟩, hjoin⟩ :=
      Option.isSome_iff_exists.mp (htotal (FactBase.findD fb s lat.bottom) outFact s)
    have hmono1 : ∀ x, (FactBase.find? fb x).isSome →
        (FactBase.find? (FactBase.insert fb s joined) x).isSome := by
      intro x hx
      rw [FactBase.find?_insert]
      by_cases h : s = x
      · simp [h]
      · rw [if_neg h]; exact hx
    have hs1 : (FactBase.find? (FactBase.insert fb s joined) s).isSome := by
      rw [FactBase.find?_insert_self]; rfl
    obtain ⟨fb', tv', heq, hmeas, hmono, hcov', hstk⟩ :=
      ih (FactBase.insert fb s joined) out
        (if changed && !(tv.contains s) then tv ++ [s] else tv)
        (fun x hx => hsub x (List.mem_cons_of_mem _ hx))
        (fun x hx => hcov x (List.mem_cons_of_mem _ hx))
    refine ⟨fb', tv', ?_, ?_, fun x hx => hmono x (hmono1 x hx),
      ?_, ?_⟩
    · simp only [joinSuccessors]
      rw [hout]
      dsimp only
      rw [hjoin]
      dsimp only
      exact heq
    · have hlen :
        (if changed && !(tv.contains s) then tv ++ [s] else tv).length ≤ tv.length + 1 := by
        by_cases hc : (changed && !(tv.contains s)) = true
        · rw [if_pos hc, List.length_append]
          simp
        · rw [if_neg hc]
          omega
      cases changed with
      | true =>
        have hlt := hrank _ _ _ _ hjoin
        have hsum := rankSum_insert_lt L g lat rank fb s joined
          (hsub s (List.mem_cons_self _ _)) hlt
        omega
      | false =>
        have hj := hnochange _ _ _ _ hjoin
        have hsum := rankSum_insert_eq L g lat rank fb s joined hj
        have htv : (if false && !(tv.contains s) then tv ++ [s] else tv) = tv := by
          simp
        rw [htv] at hmeas
        omega
    · intro x hx
      rcases List.mem_cons.mp hx with rfl | hx
      · exact hmono x hs1
      · exact hcov' x hx
    · intro hsk
      apply hstk
      by_cases hc : (changed && !(tv.contains s)) = true
      · rw [if_pos hc]
        exact stackOk_append_fact L g fb' s (hmono s hs1) tv hsk
      · rw [if_neg hc]
        exact hsk

/-- Termination of the forward worklist loop: with an honest, bounded-rank,
total join and uniformly terminating, successor-covering block processing,
the loop returns once its fuel exceeds the measure (total remaining rank
plus pending labels), as each iteration strictly decreases that measure. -/
theorem forwardLoop_some {S E I X F : Type} (L : Lang E X) (lat : LatticeContract F)
    (A : ForwardAnalysis S E I X F) (g : Graph E I X) (B : Nat) (rank : F → Nat)
    (hrank : ∀ a b l a', lat.join a b l = some (a', true) → rank a' < rank a)
    (hnochange : ∀ a b l a', lat.join a b l = some (a', false) → a' = a)
    (htotal : ∀ a b l, (lat.join a b l).isSome)
    (hblock : ∀ (s : S) (l : Label) (fb : FactBase F), (FactBase.find? fb l).isSome →
      g.contains l = true →
      ∃ s' out, fixedPointForwardBlock A g l B s fb = some (s', out) ∧
        ∀ succ ∈ succsOfLabel L g l, (FactBase.find? out succ).isSome) :
    ∀ (n : Nat) (s : S) (tv : List Label) (fb : FactBase F),
      stackOk L g fb tv → rankSum L g lat rank fb + tv.length < n →
      (forwardLoop L lat A g B n s tv fb).isSome := by
  intro n
  induction n with
  | zero => intro s tv fb _ hlt; exact absurd hlt (Nat.not_lt_zero _)
  | succ m ih =>
    intro s tv fb hsk hlt
    cases htv : tv.getLast? with
    | none =>
      simp only [forwardLoop]
      rw [htv]
      rfl
    | some t =>
      have hne : tv ≠ [] := by rintro rfl; cases htv
      obtain ⟨hne', ht⟩ := List.mem_getLast?_eq_getLast (show t ∈ tv.getLast? from htv)
      have hsplit : tv.dropLast ++ [t] = tv := by
        rw [ht]; exact List.dropLast_append_getLast hne'
      have hsk' : stackOk L g fb (tv.dropLast ++ [t]) := by rw [hsplit]; exact hsk
      have hpos : 0 < tv.length := List.length_pos.mpr hne
      have hdrop := List.length_dropLast tv
      have hlen : tv.dropLast.length + 1 = tv.length := by omega
      simp only [forwardLoop]
      rw [htv]
      dsimp only
      cases hcont : g.contains t with
      | false =>
        rw [if_neg Bool.false_ne_true]
        apply ih s tv.dropLast fb
        · refine stackOk_pop_absent L g fb t ?_ tv.dropLast hsk'
          rw [Graph.contains] at hcont
          exact Option.not_isSome_iff_eq_none.mp (by rw [hcont]; exact Bool.false_ne_true)
        · omega
      | true =>
        rw [if_pos rfl]
        have hfact : (FactBase.find? fb t).isSome := stackOk_last L g fb t tv.dropLast hsk'
        obtain ⟨s', out, hbl, hcov⟩ := hblock s t fb hfact hcont
        rw [hbl]
        dsimp only
        obtain ⟨fb', tv', heq, hmeas, hmono, hcovf, hstk⟩ :=
          joinSuccessors_spec L g lat rank hrank hnochange htotal
            (succsOfLabel L g t) fb out tv.dropLast
            (succsOfLabel_subset_univ L g t) hcov
        rw [heq]
        dsimp only
        apply ih s' tv' fb'
        · obtain ⟨b, hb⟩ := Option.isSome_iff_exists.mp
            (show (g.find? t).isSome from hcont)
          apply hstk
          refine stackOk_pop_present L g t b hb hmono ?_ tv.dropLast hsk'
          intro x hx
          apply hcovf
          rw [succsOfLabel, hb]
          exact hx
        · omega

/-- C3, amended.  `forward_analysis` terminates with a fact base for every
finite graph and every analysis, provided — beyond the claim's
finite-ascending-chain condition, rendered as a rank that strictly drops on
every changed join — that the join honestly reports "no change" (part of the
lattice contract), never panics, that the block-level processing itself
always returns (the counterexample shows an analysis that rewrites its exit
for ever makes the engine spin inside one block) while supplying a fact for
every successor of the block, and that the initial post-order traversal
succeeds (a reachable label missing from the graph aborts the run, see C7).
The proof: each worklist iteration strictly decreases the total remaining
rank of all join targets plus the number of pending labels. -/
theorem c3_forward_termination {S E I X F : Type} (L : Lang E X) (lat : LatticeContract F)
    (A : ForwardAnalysis S E I X F) (g : Graph E I X) (entry : Label) (f0 : F) (s0 : S)
    (rank : F → Nat)
    (hrank : ∀ a b l a', lat.join a b l = some (a', true) → rank a' < rank a)
    (hnochange : ∀ a b l a', lat.join a b l = some (a', false) → a' = a)
    (htotal : ∀ a b l, (lat.join a b l).isSome)
    (B : Nat)
    (hblock : ∀ (s : S) (l : Label) (fb : FactBase F), (FactBase.find? fb l).isSome →
      g.contains l = true →
      ∃ s' out, fixedPointForwardBlock A g l B s fb = some (s', out) ∧
        ∀ succ ∈ succsOfLabel L g l, (FactBase.find? out succ).isSome)
    (pf : Nat) (po : List Label) (hpo : postOrderTraversal L g pf entry = some po) :
    ∃ of, (forwardAnalysis L lat A g entry f0 s0 pf of B).isSome := by
  cases hgo : poGo L g pf [] [] entry with
  | none => rw [postOrderTraversal, hgo] at hpo; cases hpo
  | some p =>
    obtain ⟨vis', out'⟩ := p
    rw [postOrderTraversal, hgo] at hpo
    dsimp only at hpo
    injection hpo with hpo
    subst hpo
    obtain ⟨Δ, hΔ, hlast, hseg⟩ := poGo_order L g pf [] [] entry vis' out' hgo
    rw [List.nil_append] at hΔ
    subst hΔ
    have hentry : (FactBase.find? (FactBase.insert [] entry f0) entry).isSome := by
      rw [FactBase.find?_insert_self]; rfl
    have hsk : stackOk L g (FactBase.insert [] entry f0) out' := by
      rcases hlast with rfl | hlast
      · trivial
      · exact segOk_stackOk L g (FactBase.insert [] entry f0) entry hentry out' hseg hlast
    refine ⟨rankSum L g lat rank (FactBase.insert [] entry f0) + out'.length + 1, ?_⟩
    rw [forwardAnalysis, postOrderTraversal, hgo]
    dsimp only
    exact forwardLoop_some L lat A g B rank hrank hnochange htotal hblock _ s0 out'
      (FactBase.insert [] entry f0) hsk (Nat.lt_succ_self _)

/-- A do-nothing forward client over the one-point lattice: entry and
instructions pass the fact through, the exit distributes it to every
successor. -/
def trivialForward : ForwardAnalysis Unit RiscEntry RiscInstruction RiscExit Unit :=
  { analyzeEntry := fun s _ _ _ f => some (s, f)
  , analyzeInstruction := fun s _ _ _ f => some (s, f, none)
  , analyzeExit := fun s _ _ x f => some (s, .done (distributeFacts riscLang x f)) }

/-- C3, witness: the amended termination theorem applied to the do-nothing
analysis over the one-point lattice on the one-block graph. -/
theorem c3_forward_termination_witness :
    ∃ of, (forwardAnalysis riscLang unitLattice trivialForward oneBlockGraph 0 () ()
      10 of 2).isSome := by
  refine c3_forward_termination riscLang unitLattice trivialForward oneBlockGraph 0 () ()
    (fun _ => 0) ?_ ?_ ?_ 2 ?_ 10 [0] (by decide)
  · intro a b l a' h
    have h' : (((), false) : Unit × Bool) = (a', true) := by injection h
    have h2 : false = true := congrArg Prod.snd h'
    cases h2
  · intro a b l a' _
    exact Subsingleton.elim a' a
  · intro a b l
    rfl
  · intro s l fb hfact hcont
    have hl : l = 0 := by
      by_contra hne
      have hfind : Graph.find? oneBlockGraph l =
          if 0 = l then some ⟨.label 0, [], .ret⟩ else none := rfl
      rw [Graph.contains, hfind, if_neg (fun h => hne h.symm)] at hcont
      cases hcont
    subst hl
    obtain ⟨f, hf⟩ := Option.isSome_iff_exists.mp hfact
    refine ⟨s, [], ?_, ?_⟩
    · show fixedPointForwardBlock trivialForward oneBlockGraph 0 2 s fb = some (s, [])
      simp only [fixedPointForwardBlock]
      rw [hf]
      rfl
    · intro succ h
      have hsuc : succsOfLabel riscLang oneBlockGraph 0 = [] := rfl
      rw [hsuc] at h
      cases h
